import Mathlib

/-!
Verification of `file_browser.py` against its specification.

The file shallowly embeds the core of the program:

* `human_readable_byte_count_si` / `parse_human_readable_byte_count_si`
  (the SizeFormatter, lines 119-134 of the source);
* the `FileBrowser` session state (class attributes, lines 34-40) together
  with its event handlers `watch_path` (91-107),
  `on_data_table_row_selected` (67-68), `_on_click` (70-72) and
  `on_data_table_header_selected` (81-89).

Modelling conventions, stated once here:

* Python `int` is `ℤ`, `str` is `String` (a list of `Char`).
* Python `float` is IEEE binary64 and is modelled exactly: a float value is
  a dyadic rational `m * 2^t` (every binary64 in the program's range is
  one), and each float division by `1000` — `n /= 1000` in the loop and the
  final `n / 1000.0` — is modelled by `flDiv1000`, the correctly rounded
  (round half to even, 53-bit significand) binary64 quotient, computed in
  integer arithmetic.  CPython's `int.__truediv__` and
  `float.__truediv__` both produce exactly this correctly rounded result,
  and the magnitudes involved stay far from overflow and subnormals.
  `"%.1f" % v` rounds the exact value of the double `v` half to even at
  one decimal; it is computed here as `rheDec`, again in integer
  arithmetic (`rhe a b` is round half to even of `a / b`).
* `os.scandir` and the filesystem are external: a scan outcome enters the
  session step function as an `Except String (List Entry)` argument
  (the `String` is `str(e)` of the raised exception).
* The textual `DataTable` widget's visible state (its rows and their keys)
  is inlined into the session record; `DataTable.add_rows` generates fresh
  row keys, modelled by a monotone counter `next_key`.
* `datetime.datetime.fromtimestamp` is external; its rendering is modelled
  by an injective rendering of the timestamp (no claim inspects its text).
-/

namespace FileBrowser

/-! ## Decimal digit strings (used by `"%.1f"` rendering and `float()` parsing) -/

/-- Numeric value of a decimal digit character (`'0'` … `'9'`). -/
def charVal (c : Char) : ℕ := c.toNat - 48

/-- Value of a big-endian string of decimal digit characters. -/
def decVal (l : List Char) : ℕ := l.foldl (fun a c => 10 * a + charVal c) 0

/-- Little-endian decimal digits of `n`, with explicit structural fuel so that
the kernel can evaluate it.  Agrees with `Nat.digits 10` (proved below). -/
def decDigitsF : ℕ → ℕ → List ℕ
  | 0, _ => []
  | _ + 1, 0 => []
  | f + 1, n + 1 => (n + 1) % 10 :: decDigitsF f ((n + 1) / 10)

/-- Little-endian decimal digits of `n`. -/
def decDigits (n : ℕ) : List ℕ := decDigitsF n n

/-- Big-endian decimal rendering of a natural number, as characters. -/
def natToDecChars (n : ℕ) : List Char :=
  if n = 0 then ['0'] else ((decDigits n).map Nat.digitChar).reverse

/-! ## SizeFormatter (source lines 119-134) -/

/-- Round half to even of the exact rational `a / b` (`b > 0`): the rounding
mode of CPython's `"%.1f"` formatting, computed in integer arithmetic. -/
def rhe (a b : ℤ) : ℤ :=
  if 2 * (a % b) < b then a / b
  else if b < 2 * (a % b) then a / b + 1
  else if (a / b) % 2 = 0 then a / b else a / b + 1

/-- Round half to even as a function of the exact rational value (`rhe a b`
equals `rneQ (a / b)` for `b > 0`; proved below).  Used only in proofs. -/
def rneQ (q : ℚ) : ℤ :=
  if Int.fract q < 1/2 then ⌊q⌋
  else if 1/2 < Int.fract q then ⌊q⌋ + 1
  else if ⌊q⌋ % 2 = 0 then ⌊q⌋ else ⌊q⌋ + 1

/-- `⌊log2 n⌋` with explicit structural fuel, so the kernel can evaluate it. -/
def log2F : ℕ → ℕ → ℕ
  | 0, _ => 0
  | f + 1, n => if n < 2 then 0 else log2F f (n / 2) + 1

/-- `⌊log2 n⌋` (0 at 0). -/
def log2n (n : ℕ) : ℕ := log2F n n

/-- Integer test for `c * 2^j ≤ a` with a signed scale `j`. -/
def geScaled (a c : ℤ) (j : ℤ) : Bool :=
  if 0 ≤ j then decide (c * 2 ^ j.toNat ≤ a) else decide (c ≤ a * 2 ^ (-j).toNat)

/-- The exact rational value of the dyadic float `m * 2^t`. -/
def dval (m t : ℤ) : ℚ := (m : ℚ) * 2 ^ t

/-- `⌊log2 ((m * 2^t) / 1000)⌋` for `m ≥ 1`: the binary exponent of the true
quotient, which fixes the rounding grid of the binary64 division. -/
def flDivE (m t : ℤ) : ℤ :=
  (if geScaled m 1000 ((log2n m.natAbs : ℤ) - 9) then (log2n m.natAbs : ℤ) - 9
   else (log2n m.natAbs : ℤ) - 10) + t

/-- Correctly rounded binary64 division of the dyadic `m * 2^t` by `1000`
(round half to even on the grid `2^(e-52)`, `e` the exponent of the true
quotient), returned as a dyadic pair.  This is exactly what CPython's
`n /= 1000` and `n / 1000.0` compute for the values this program produces
(normal range, no overflow). -/
def flDiv1000 (m t : ℤ) : ℤ × ℤ :=
  (if 0 ≤ t - flDivE m t + 52 then rhe (m * 2 ^ (t - flDivE m t + 52).toNat) 1000
   else rhe m (1000 * 2 ^ (-(t - flDivE m t + 52)).toNat),
   flDivE m t - 52)

/-- The loop `p = 0; while n <= -999950 or n >= 999950: n /= 1000; p += 1`
of `human_readable_byte_count_si` (source lines 124-127), on `|n|` as a
dyadic float, returning `(p, final value)`.  Fuel 7 is used at the call
site: seven divisions only happen when the prefix index is already ≥ 6, and
then `prefixes[p]` raises `IndexError` no matter how much further the real
loop runs, so capping the count at 7 leaves the function's observable
result (the returned string or the raised `IndexError`) exactly faithful. -/
def floatLoop : ℕ → ℤ → ℤ → ℕ × ℤ × ℤ
  | 0, m, t => (0, m, t)
  | f + 1, m, t =>
      if geScaled m 999950 (-t) then
        (((floatLoop f (flDiv1000 m t).1 (flDiv1000 m t).2).1 + 1,
          (floatLoop f (flDiv1000 m t).1 (flDiv1000 m t).2).2))
      else (0, m, t)

/-- `"%.1f"`'s rounding: the exact value of the double `m * 2^t`, times 10,
rounded half to even to an integer (the printed mantissa is that integer
divided by 10). -/
def rheDec (m t : ℤ) : ℤ :=
  if 0 ≤ t then 10 * m * 2 ^ t.toNat else rhe (10 * m) (2 ^ (-t).toNat)

/-- The integer `d` such that `"%.1f" % ((m * 2^t) / 1000.0)` prints
`d / 10`: the final display division followed by the decimal rounding. -/
def dispD (m t : ℤ) : ℤ := rheDec (flDiv1000 m t).1 (flDiv1000 m t).2

/-- `prefixes = "kMGTPE"` (source line 123). -/
def prefixes : List Char := ['k', 'M', 'G', 'T', 'P', 'E']

/-- The characters printed by `"%.1f" % v` for the exact value `d / 10`,
`d = rhe (10*num) den`: optional sign, integer part, `'.'`, one digit.
(The reachable calls all have `|d| ≥ 10`, so the `-0.x` corner of CPython's
renderer never arises.) -/
def mantChars (d : ℤ) : List Char :=
  (if d < 0 then ['-'] else []) ++
    natToDecChars (d.natAbs / 10) ++ '.' :: natToDecChars (d.natAbs % 10)

/-- `human_readable_byte_count_si` (source lines 119-129).

```
def human_readable_byte_count_si(n):
    if -1000 < n and n < 1000:
        return str(n) + " B"
    prefixes = "kMGTPE"
    p = 0
    while n <= -999950 or n >= 999950:
        n /= 1000
        p += 1
    return "%.1f %sB" % (n / 1000.0, prefixes[p])
```

`prefixes[p]` raises `IndexError` when `p` exceeds 5; the model returns
`none` there (a fallible lookup into the six-character prefix string).
The loop runs on `|n|` (rounding and the comparisons are symmetric in the
sign) and the sign is reapplied to the printed mantissa. -/
def human_readable_byte_count_si (n : ℤ) : Option String :=
  if -1000 < n ∧ n < 1000 then some (toString n ++ " B")
  else
    match floatLoop 7 (n.natAbs : ℤ) 0 with
    | (p, m, t) =>
        match prefixes[p]? with
        | some c =>
            some (String.mk (mantChars
              (if n < 0 then -dispD m t else dispD m t) ++ ' ' :: c :: ['B']))
        | none => none

/-- One step of Python `str.split()`: accumulate the current word (reversed in
`cur`), emitting maximal nonempty runs of non-space characters.  The strings
the program splits contain `' '` as their only whitespace. -/
def splitWsAux : List Char → List Char → List (List Char)
  | [], cur => if cur.isEmpty then [] else [cur.reverse]
  | c :: cs, cur =>
      if c = ' ' then
        (if cur.isEmpty then splitWsAux cs [] else cur.reverse :: splitWsAux cs [])
      else splitWsAux cs (c :: cur)

/-- Python `str.split()` (no argument): split on whitespace, dropping empty fields. -/
def splitWs (l : List Char) : List (List Char) := splitWsAux l []

/-- `prefixes = "BkMGTPE"` of the parser (source line 132). -/
def parsePrefixes : List Char := ['B', 'k', 'M', 'G', 'T', 'P', 'E']

/-- Python `float()` on an unsigned decimal literal: digits, an optional
`'.'`, optional fractional digits, at least one digit overall.  (The source
only ever feeds such literals to `float`; exponent forms are not produced by
`human_readable_byte_count_si` and are not modelled.) -/
def parseDec (l : List Char) : Option ℚ :=
  let ip := l.takeWhile Char.isDigit
  match l.dropWhile Char.isDigit with
  | [] => if ip.isEmpty then none else some (decVal ip : ℚ)
  | '.' :: fp =>
      if fp.all Char.isDigit ∧ ¬(ip.isEmpty ∧ fp.isEmpty) then
        some ((decVal ip : ℚ) + (decVal fp : ℚ) / 10 ^ fp.length)
      else none
  | _ => none

/-- Python `float()` with an optional leading minus sign. -/
def parseFloatChars (l : List Char) : Option ℚ :=
  if l.head? = some '-' then (parseDec l.tail).map (fun q => -q) else parseDec l

/-- `parse_human_readable_byte_count_si` (source lines 131-134).

```
def parse_human_readable_byte_count_si(n):
    prefixes = "BkMGTPE"
    number, units = n.split()
    return float(number) * pow(1000, prefixes.index(units[0]))
```

Each fallible Python step (destructuring into exactly two fields, `float`,
`str.index`) is an `Option` layer here.
`parseNumberUnits` is `float(number) * pow(1000, prefixes.index(units[0]))`. -/
def parseNumberUnits (number units : List Char) : Option ℚ :=
  match parseFloatChars number, units with
  | some q, u :: _ =>
      (parsePrefixes.findIdx? (fun c => c == u)).map (fun i => q * 1000 ^ i)
  | _, _ => none

/-- `number, units = n.split()` then `parseNumberUnits`; `none` (a raised
`ValueError`) unless the split yields exactly two fields. -/
def parse_human_readable_byte_count_si (s : String) : Option ℚ :=
  match splitWs s.data with
  | [number, units] => parseNumberUnits number units
  | _ => none

/-- The mantissa a formatted size string displays: its first
whitespace-separated field, read back as a number. -/
def mantissaOf (s : String) : Option ℚ :=
  match splitWs s.data with
  | num :: _ => parseFloatChars num
  | [] => none

/-! ## Session state (class `FileBrowser`, source lines 25-111) -/

/-- One `os.DirEntry` as captured by `watch_path`'s scan: `item.name`,
`item.stat().st_size`, `item.stat().st_mtime`, `item.path` (the absolute raw
path handed to `os.startfile`). -/
structure Entry where
  name : String
  size : ℤ
  mtime : ℤ
  path : String
deriving DecidableEq

/-- `datetime.datetime.fromtimestamp(...)` rendering — external collaborator,
modelled as an injective rendering of the timestamp; no claim reads its text. -/
def formatModified (t : ℤ) : String := toString t

/-- The session state: the `FileBrowser` class attributes (source lines
34-40) plus the visible `DataTable` state.  `table_rows` pairs each visible
row's key with its three formatted cells `[name, size, modified]`;
`data_by_key` is the key → `DirEntry` mapping; `next_key` is the row-key
generator of `DataTable.add_rows` (textual keys are globally fresh);
`log` is the `Log` widget's lines. -/
structure Session where
  table_rows : List (ℕ × List String)
  data_by_key : List (ℕ × Entry)
  selected_row : Option ℕ
  sort_column : String
  sort_reverse : Bool
  next_key : ℕ
  log : List String
deriving DecidableEq

/-- The row the `watch_path` list comprehension builds for one entry:
`[item.name, human_readable_byte_count_si(item.stat().st_size),
datetime.datetime.fromtimestamp(item.stat().st_mtime)]` (source line 101).
`none` when the size formatter raises (prefix overflow). -/
def rowOf (e : Entry) : Option (List String) :=
  (human_readable_byte_count_si e.size).map
    (fun sz => [e.name, sz, formatModified e.mtime])

/-- The whole list comprehension of source line 101; `none` as soon as one
entry's size formatting raises (the comprehension is evaluated in full before
`add_rows` runs, inside the `try`). -/
def rowsOf (es : List Entry) : Option (List (List String)) := es.mapM rowOf

/-- `watch_path` (source lines 91-107), the directory-selected transition.

```
def watch_path(self, path):
    data_view = self.query_one("#data", DataTable)
    if path is None:
        return
    try:
        data_view.clear()
        self.data_by_key = {}
        data_values = list(os.scandir(path))
        data_keys = data_view.add_rows([[item.name, human_readable_byte_count_si(...), ...]
                                        for item in data_values])
        for key, value in zip(data_keys, data_values):
            self.data_by_key[key] = value
    except Exception as e:
        log = self.query_one(Log)
        log.write_line(str(e))
```

The scan outcome is the `scan` argument (`.error (str e)` when `os.scandir`
raises: path missing, not a directory, permission denied).  Note what the
handler does NOT touch: `selected_row`, `sort_column`, `sort_reverse`. -/
def watch_path (s : Session) (path : Option String)
    (scan : Except String (List Entry)) : Session :=
  match path with
  | none => s
  | some _ =>
      let s0 := { s with table_rows := [], data_by_key := [] }
      match scan with
      | .error e => { s0 with log := s0.log ++ [e] }
      | .ok es =>
          match rowsOf es with
          | none => { s0 with log := s0.log ++ ["string index out of range"] }
          | some cells =>
              let keys := List.range' s.next_key es.length
              { s0 with
                  table_rows := keys.zip cells
                  data_by_key := keys.zip es
                  next_key := s.next_key + es.length }

/-- `on_data_table_row_selected` (source lines 67-68):
`self.selected_row = event.row_key`. -/
def on_data_table_row_selected (s : Session) (row_key : ℕ) : Session :=
  { s with selected_row := some row_key }

/-- A Python exception escaping a handler. -/
inductive PyErr where
  | attributeError (attr : String)
  | keyError
deriving DecidableEq

instance {ε α : Type} [DecidableEq ε] [DecidableEq α] : DecidableEq (Except ε α) :=
  fun a b =>
    match a, b with
    | .error x, .error y =>
        if h : x = y then .isTrue (congrArg Except.error h)
        else .isFalse (fun he => h (Except.error.inj he))
    | .ok x, .ok y =>
        if h : x = y then .isTrue (congrArg Except.ok h)
        else .isFalse (fun he => h (Except.ok.inj he))
    | .error _, .ok _ => .isFalse (fun he => Except.noConfusion he)
    | .ok _, .error _ => .isFalse (fun he => Except.noConfusion he)

/-- `_on_click` (source lines 70-72), the row-activation handler.

```
def _on_click(self, event):
    if event.widget == self.query_one(DataTable) and self.selected_row is not None and event.chain == 2:
        os.startfile(self.data_by_row[self.selected_row].path)
```

`.ok (some p)` would model one `os.startfile(p)` call and `.ok none` the
silent no-op.  But the guarded branch evaluates `self.data_by_row`, and the
class never assigns an attribute of that name — the mapping built at source
lines 99/103 is `self.data_by_key` — so attribute lookup raises
`AttributeError` before `os.startfile` can run, whatever the mapping holds. -/
def _on_click (s : Session) (widgetIsTable : Bool) (chain : ℕ) :
    Except PyErr (Option String) :=
  if widgetIsTable = true ∧ s.selected_row ≠ none ∧ chain = 2 then
    .error (.attributeError "data_by_row")
  else .ok none

/-- `column_names` (source line 34). -/
def column_names : List String := ["Name", "Size", "Modified"]

/-- A sort key produced by the `key` callable handed to `DataTable.sort`
(source line 88): the parsed byte count for the Size column
(`parse_human_readable_byte_count_si`), the cell value itself
(`lambda x: x`) otherwise. -/
inductive SortVal where
  | num (q : ℚ)
  | str (s : String)

/-- The `key` callable of source line 88, per cell:
`parse_human_readable_byte_count_si if event.column_index == self.column_names.index("Size") else lambda x: x`.
A cell the parser rejects would raise inside `sorted`; the model totalises
that unreachable case with `0` (every Size cell the program itself builds was
produced by `human_readable_byte_count_si`). -/
def sort_key_fn (column_index : ℕ) (cell : String) : SortVal :=
  if column_index = column_names.indexOf "Size" then
    .num ((parse_human_readable_byte_count_si cell).getD 0)
  else .str cell

/-- Comparison of sort keys: numeric for parsed sizes, code-point
lexicographic (Python string `<=`) for plain cells.  Heterogeneous
comparisons never arise (one sort uses one key function). -/
def svLe : SortVal → SortVal → Prop
  | .num a, .num b => a ≤ b
  | .str a, .str b => ¬ (b.data < a.data)
  | .num _, .str _ => True
  | .str _, .num _ => True

instance : DecidableRel svLe := fun a b =>
  match a, b with
  | .num a, .num b => inferInstanceAs (Decidable (a ≤ b))
  | .str a, .str b => inferInstanceAs (Decidable ¬(b.data < a.data))
  | .num _, .str _ => inferInstanceAs (Decidable True)
  | .str _, .num _ => inferInstanceAs (Decidable True)

/-- Cell of a table row at a column index (rows always carry three cells). -/
def cellAt (column_index : ℕ) (r : ℕ × List String) : String :=
  r.2.getD column_index ""

/-- Row ordering used by `DataTable.sort`: compare the sort keys of the
cells in the sorted column. -/
def rowRel (column_index : ℕ) (a b : ℕ × List String) : Prop :=
  svLe (sort_key_fn column_index (cellAt column_index a))
    (sort_key_fn column_index (cellAt column_index b))

instance (column_index : ℕ) : DecidableRel (rowRel column_index) := fun a b =>
  inferInstanceAs (Decidable (svLe (sort_key_fn column_index (cellAt column_index a))
    (sort_key_fn column_index (cellAt column_index b))))

/-- `DataTable.sort(column, key=..., reverse=...)`: a stable sort by the key
of the sorted column, reversed when `reverse` (descending; the tie-order
nuance of CPython's `reverse=True` is irrelevant to every claim, which only
depend on the result being a reordering). -/
def tableSort (rows : List (ℕ × List String)) (column_index : ℕ)
    (reverse : Bool) : List (ℕ × List String) :=
  let sorted := List.insertionSort (rowRel column_index) rows
  if reverse then sorted.reverse else sorted

/-- `on_data_table_header_selected` (source lines 81-89).

```
def on_data_table_header_selected(self, event):
    if self.sort_column == event.column_key:
        self.sort_reverse = not self.sort_reverse
    else:
        self.sort_reverse = False
        self.sort_column = event.column_key
    event.data_table.sort(self.sort_column,
                          key = parse_human_readable_byte_count_si if event.column_index == self.column_names.index("Size") else lambda x: x,
                          reverse = self.sort_reverse)
```

After the update `self.sort_column` equals the clicked column in both
branches, so the table is re-sorted on the clicked column with the updated
direction. -/
def on_data_table_header_selected (s : Session) (column_key : String)
    (column_index : ℕ) : Session :=
  let s1 :=
    if s.sort_column = column_key then { s with sort_reverse := !s.sort_reverse }
    else { s with sort_reverse := false, sort_column := column_key }
  { s1 with table_rows := tableSort s1.table_rows column_index s1.sort_reverse }

/-! ## Concrete scenario fixtures

Small concrete sessions exercising the event handlers: an initial session
(the class-attribute defaults of source lines 34-40), one directory scan,
a row selection, and a second directory scan. -/

/-- A file of `/home/user`, as scanned. -/
def entryA : Entry := ⟨"a.txt", 1234, 100, "/home/user/a.txt"⟩

/-- A file of `/other`, as scanned. -/
def entryB : Entry := ⟨"b.txt", 5, 200, "/other/b.txt"⟩

/-- The freshly mounted session: empty table, no selection,
`sort_column = "Name"`, `sort_reverse = False`. -/
def session0 : Session := ⟨[], [], none, "Name", false, 0, []⟩

/-- After a directory-selected event for `/home/user` whose scan returns
`[entryA]`. -/
def sessionHome : Session := watch_path session0 (some "/home/user") (.ok [entryA])

/-- After the user selects the (single) row of `sessionHome`. -/
def sessionSelected : Session := on_data_table_row_selected sessionHome 0

/-- After a subsequent directory-selected event for `/other`: the row set and
mapping are rebuilt (fresh key `1`), while the selection still holds key `0`
of the previous directory. -/
def sessionOther : Session := watch_path sessionSelected (some "/other") (.ok [entryB])

/-! ## Decimal digit helper lemmas -/

theorem decDigitsF_eq_digits : ∀ f n, n ≤ f → decDigitsF f n = Nat.digits 10 n := by
  intro f
  induction f with
  | zero => intro n hn; interval_cases n; simp [decDigitsF]
  | succ f ih =>
      intro n hn
      match n with
      | 0 => simp [decDigitsF]
      | n + 1 =>
          rw [decDigitsF, Nat.digits_def' (by norm_num) (Nat.succ_pos n), ih]
          exact Nat.le_of_lt_succ (Nat.lt_of_lt_of_le (Nat.div_lt_self (Nat.succ_pos n) (by norm_num)) hn)

theorem decDigits_eq (n : ℕ) : decDigits n = Nat.digits 10 n :=
  decDigitsF_eq_digits n n le_rfl

theorem charVal_digitChar : ∀ d < 10, charVal (Nat.digitChar d) = d := by decide

theorem digitChar_isDigit : ∀ d < 10, (Nat.digitChar d).isDigit = true := by decide

theorem isDigit_ne (c : Char) (hc : c.isDigit = true) :
    c ≠ ' ' ∧ c ≠ '.' ∧ c ≠ '-' := by
  refine ⟨?_, ?_, ?_⟩ <;> rintro rfl <;> simp at hc

theorem natToDecChars_isDigit (n : ℕ) :
    ∀ c ∈ natToDecChars n, c.isDigit = true := by
  intro c hc
  unfold natToDecChars at hc
  split at hc
  · simp at hc; subst hc; decide
  · rw [List.mem_reverse, List.mem_map] at hc
    obtain ⟨d, hd, rfl⟩ := hc
    exact digitChar_isDigit d (Nat.digits_lt_base (by norm_num) ((decDigits_eq n) ▸ hd))

theorem natToDecChars_ne_nil (n : ℕ) : natToDecChars n ≠ [] := by
  unfold natToDecChars
  split
  · simp
  · rw [← List.length_pos_iff_ne_nil, List.length_reverse, List.length_map,
      decDigits_eq, List.length_pos_iff_ne_nil]
    simpa [Nat.digits_ne_nil_iff_ne_zero] using (by assumption : ¬ n = 0)

theorem natToDecChars_lt_ten : ∀ m < 10, natToDecChars m = [Nat.digitChar m] := by decide

theorem foldl_decVal : ∀ (L : List ℕ), (∀ d ∈ L, d < 10) → ∀ acc : ℕ,
    List.foldl (fun a c => 10 * a + charVal c) acc ((L.map Nat.digitChar).reverse) =
      acc * 10 ^ L.length + Nat.ofDigits 10 L := by
  intro L
  induction L with
  | nil => intro _ acc; simp [Nat.ofDigits_nil]
  | cons d T ih =>
      intro hlt acc
      have hd : d < 10 := hlt d (List.mem_cons_self d T)
      have hT : ∀ x ∈ T, x < 10 := fun x hx => hlt x (List.mem_cons_of_mem d hx)
      rw [List.map_cons, List.reverse_cons, List.foldl_append, ih hT acc]
      simp only [List.foldl_cons, List.foldl_nil, Nat.ofDigits_cons, List.length_cons,
        charVal_digitChar d hd]
      ring

theorem decVal_natToDecChars (n : ℕ) : decVal (natToDecChars n) = n := by
  unfold natToDecChars decVal
  split
  · subst n; decide
  · rw [foldl_decVal (decDigits n)
      (fun d hd => Nat.digits_lt_base (by norm_num) ((decDigits_eq n) ▸ hd)) 0]
    simp [decDigits_eq, Nat.ofDigits_digits]

/-! ## `float()` inverts the `"%.1f"` rendering -/

theorem takeWhile_append_of {p : Char → Bool} : ∀ (A B : List Char) (x : Char),
    (∀ c ∈ A, p c = true) → p x = false →
    (A ++ x :: B).takeWhile p = A ∧ (A ++ x :: B).dropWhile p = x :: B := by
  intro A
  induction A with
  | nil => intro B x _ hx; simp [List.takeWhile_cons, List.dropWhile_cons, hx]
  | cons a T ih =>
      intro B x hA hx
      have ha : p a = true := hA a (List.mem_cons_self a T)
      obtain ⟨h1, h2⟩ := ih B x (fun c hc => hA c (List.mem_cons_of_mem a hc)) hx
      simp [List.takeWhile_cons, List.dropWhile_cons, ha, h1, h2]

theorem div_ten_add_mod_ten (a : ℕ) :
    ((a / 10 : ℕ) : ℚ) + ((a % 10 : ℕ) : ℚ) / 10 = (a : ℚ) / 10 := by
  have h : a / 10 * 10 + a % 10 = a := by omega
  field_simp
  exact_mod_cast h

theorem parseDec_render (i fd : ℕ) (hfd : fd < 10) :
    parseDec (natToDecChars i ++ '.' :: [Nat.digitChar fd]) =
      some ((i : ℚ) + (fd : ℚ) / 10) := by
  obtain ⟨h1, h2⟩ := takeWhile_append_of (natToDecChars i) [Nat.digitChar fd] '.'
    (natToDecChars_isDigit i) (by decide)
  unfold parseDec
  rw [h1, h2]
  have hip : (natToDecChars i).isEmpty = false := by
    simpa [List.isEmpty_iff] using natToDecChars_ne_nil i
  show (if ([Nat.digitChar fd]).all Char.isDigit = true ∧
        ¬((natToDecChars i).isEmpty = true ∧ ([Nat.digitChar fd]).isEmpty = true) then
      some ((decVal (natToDecChars i) : ℚ) +
        (decVal [Nat.digitChar fd] : ℚ) / 10 ^ ([Nat.digitChar fd]).length)
    else none) = some ((i : ℚ) + (fd : ℚ) / 10)
  rw [if_pos ⟨by simp [digitChar_isDigit fd hfd], by simp [hip]⟩]
  have : decVal [Nat.digitChar fd] = fd := by
    simp [decVal, charVal_digitChar fd hfd]
  rw [decVal_natToDecChars, this]
  norm_num

theorem parseFloatChars_mantChars (d : ℤ) :
    parseFloatChars (mantChars d) = some ((d : ℚ) / 10) := by
  have hmod : d.natAbs % 10 < 10 := Nat.mod_lt _ (by norm_num)
  rcases le_or_lt 0 d with hd | hd
  · have hm : mantChars d =
        natToDecChars (d.natAbs / 10) ++ '.' :: [Nat.digitChar (d.natAbs % 10)] := by
      unfold mantChars
      rw [if_neg (not_lt.mpr hd), natToDecChars_lt_ten (d.natAbs % 10) hmod]
      simp
    obtain ⟨c, A', hA⟩ := List.exists_cons_of_ne_nil (natToDecChars_ne_nil (d.natAbs / 10))
    have hcdig : c.isDigit = true := natToDecChars_isDigit _ c (hA ▸ List.mem_cons_self c A')
    have hcne : c ≠ '-' := (isDigit_ne c hcdig).2.2
    rw [hm]
    unfold parseFloatChars
    rw [if_neg (by rw [hA]; simpa using hcne)]
    rw [parseDec_render _ _ hmod, div_ten_add_mod_ten]
    have hcast : ((d.natAbs : ℕ) : ℚ) = (d : ℚ) := by
      rw [Int.cast_natAbs, abs_of_nonneg hd]
    rw [hcast]
  · have hm : mantChars d =
        '-' :: (natToDecChars (d.natAbs / 10) ++ '.' :: [Nat.digitChar (d.natAbs % 10)]) := by
      unfold mantChars
      rw [if_pos hd, natToDecChars_lt_ten (d.natAbs % 10) hmod]
      simp
    rw [hm]
    unfold parseFloatChars
    have hhead : ('-' :: (natToDecChars (d.natAbs / 10) ++
        '.' :: [Nat.digitChar (d.natAbs % 10)])).head? = some '-' := rfl
    rw [if_pos hhead]
    simp only [List.tail_cons]
    rw [parseDec_render _ _ hmod, div_ten_add_mod_ten]
    have hcast : ((d.natAbs : ℕ) : ℚ) = -(d : ℚ) := by
      rw [Int.cast_natAbs, abs_of_neg hd, Int.cast_neg]
    rw [Option.map_some', hcast]
    congr 1
    ring

/-! ## `str.split()` lemmas -/

theorem splitWsAux_no_space : ∀ (B cur : List Char), (∀ c ∈ B, c ≠ ' ') →
    splitWsAux B cur =
      if (cur.reverse ++ B).isEmpty then [] else [cur.reverse ++ B] := by
  intro B
  induction B with
  | nil => intro cur _; simp [splitWsAux]
  | cons b T ih =>
      intro cur hB
      have hb : ¬ (b = ' ') := hB b (List.mem_cons_self b T)
      rw [splitWsAux, if_neg hb, ih (b :: cur) (fun c hc => hB c (List.mem_cons_of_mem b hc))]
      simp

theorem splitWsAux_split : ∀ (A cs cur : List Char), (∀ c ∈ A, c ≠ ' ') →
    splitWsAux (A ++ ' ' :: cs) cur =
      if (cur.reverse ++ A).isEmpty then splitWsAux cs []
      else (cur.reverse ++ A) :: splitWsAux cs [] := by
  intro A
  induction A with
  | nil => intro cs cur _; simp [splitWsAux]
  | cons a T ih =>
      intro cs cur hA
      have ha : ¬ (a = ' ') := hA a (List.mem_cons_self a T)
      rw [List.cons_append, splitWsAux, if_neg ha,
        ih cs (a :: cur) (fun c hc => hA c (List.mem_cons_of_mem a hc))]
      simp

theorem splitWs_pair (A B : List Char) (hA : A ≠ []) (hB : B ≠ [])
    (hAs : ∀ c ∈ A, c ≠ ' ') (hBs : ∀ c ∈ B, c ≠ ' ') :
    splitWs (A ++ ' ' :: B) = [A, B] := by
  unfold splitWs
  rw [splitWsAux_split A B [] hAs]
  simp only [List.reverse_nil, List.nil_append]
  rw [if_neg (by simpa [List.isEmpty_iff] using hA), splitWsAux_no_space B [] hBs]
  simp [List.isEmpty_iff, hB]

theorem mantChars_no_space (d : ℤ) : ∀ c ∈ mantChars d, c ≠ ' ' := by
  intro c hc
  unfold mantChars at hc
  rw [List.mem_append, List.mem_append] at hc
  rcases hc with (hc | hc) | hc
  · split at hc <;> simp at hc; subst hc; decide
  · exact (isDigit_ne c (natToDecChars_isDigit _ c hc)).1
  · rcases List.mem_cons.mp hc with rfl | hc
    · decide
    · exact (isDigit_ne c (natToDecChars_isDigit _ c hc)).1

theorem mantChars_ne_nil (d : ℤ) : mantChars d ≠ [] := by
  unfold mantChars
  simp [natToDecChars_ne_nil]

/-! ## Round-half-even error bound -/

theorem rhe_err (a b : ℤ) (hb : 0 < b) : 2 * |rhe a b * b - a| ≤ b := by
  have hr0 : 0 ≤ a % b := Int.emod_nonneg a (ne_of_gt hb)
  have hrb : a % b < b := Int.emod_lt_of_pos a hb
  have hqr : a % b + b * (a / b) = a := Int.emod_add_ediv a b
  have hcomm : a / b * b = b * (a / b) := mul_comm _ _
  have hdist : (a / b + 1) * b = a / b * b + b := by ring
  have eq1 : a / b * b - a = -(a % b) := by linarith
  have eq2 : (a / b + 1) * b - a = b - a % b := by linarith
  unfold rhe
  split_ifs with h1 h2 h3
  · rw [eq1, abs_neg, abs_of_nonneg hr0]; omega
  · rw [eq2, abs_of_nonneg (by omega)]; omega
  · rw [eq1, abs_neg, abs_of_nonneg hr0]; omega
  · rw [eq2, abs_of_nonneg (by omega)]; omega

/-! ## Round half to even as a function of the value -/

theorem rneQ_bounds (q : ℚ) : ⌊q⌋ ≤ rneQ q ∧ rneQ q ≤ ⌊q⌋ + 1 := by
  unfold rneQ
  split_ifs <;> omega

theorem rneQ_err (q : ℚ) : |(rneQ q : ℚ) - q| ≤ 1/2 := by
  have h0 : 0 ≤ Int.fract q := Int.fract_nonneg q
  have h1 : Int.fract q < 1 := Int.fract_lt_one q
  have hfr : Int.fract q = q - ⌊q⌋ := rfl
  rw [abs_le]
  unfold rneQ
  split_ifs with hc1 hc2 hc3 <;> constructor <;> push_cast <;> linarith

theorem rneQ_le (q : ℚ) : (rneQ q : ℚ) ≤ q + 1/2 := by
  have := abs_le.mp (rneQ_err q)
  linarith [this.2]

theorem rneQ_ge (q : ℚ) : q - 1/2 ≤ (rneQ q : ℚ) := by
  have := abs_le.mp (rneQ_err q)
  linarith [this.1]

theorem rneQ_mono {x y : ℚ} (h : x ≤ y) : rneQ x ≤ rneQ y := by
  have hfx : Int.fract x = x - ⌊x⌋ := rfl
  have hfy : Int.fract y = y - ⌊y⌋ := rfl
  rcases lt_or_eq_of_le (Int.floor_le_floor h) with hf | hf
  · have b1 := rneQ_bounds x
    have b2 := rneQ_bounds y
    omega
  · have hfr : Int.fract x ≤ Int.fract y := by
      rw [hfx, hfy, ← hf]
      linarith
    unfold rneQ
    rw [← hf]
    split_ifs <;> first | omega | linarith

theorem rneQ_intCast (k : ℤ) : rneQ (k : ℚ) = k := by
  unfold rneQ
  rw [Int.fract_intCast, Int.floor_intCast]
  norm_num

theorem rhe_eq_rneQ (a b : ℤ) (hb : 0 < b) : rhe a b = rneQ ((a : ℚ) / b) := by
  have hbQ : (0:ℚ) < (b : ℚ) := by exact_mod_cast hb
  have hqr : a % b + b * (a / b) = a := Int.emod_add_ediv a b
  have hbn : ((b.toNat : ℕ) : ℤ) = b := Int.toNat_of_nonneg hb.le
  have hfl : ⌊(a : ℚ) / b⌋ = a / b := by
    rw [show ((b : ℤ) : ℚ) = ((b.toNat : ℕ) : ℚ) from by exact_mod_cast hbn.symm,
      Rat.floor_intCast_div_natCast a b.toNat, hbn]
  have hfr : Int.fract ((a : ℚ) / b) = ((a % b : ℤ) : ℚ) / b := by
    have ha : ((a : ℤ) : ℚ) = ((a % b : ℤ) : ℚ) + (b : ℚ) * ((a / b : ℤ) : ℚ) := by
      exact_mod_cast hqr.symm
    rw [Int.fract, hfl, ha]
    field_simp
  have c1 : (Int.fract ((a : ℚ) / b) < 1/2) ↔ (2 * (a % b) < b) := by
    rw [hfr, div_lt_iff₀ hbQ]
    constructor
    · intro h
      have h2 : ((2 * (a % b) : ℤ) : ℚ) < (b : ℚ) := by push_cast; linarith
      exact_mod_cast h2
    · intro h
      have h2 : ((2 * (a % b) : ℤ) : ℚ) < (b : ℚ) := by exact_mod_cast h
      push_cast at h2
      linarith
  have c2 : (1/2 < Int.fract ((a : ℚ) / b)) ↔ (b < 2 * (a % b)) := by
    rw [hfr, lt_div_iff₀ hbQ]
    constructor
    · intro h
      have h2 : ((b : ℤ) : ℚ) < ((2 * (a % b) : ℤ) : ℚ) := by push_cast; linarith
      exact_mod_cast h2
    · intro h
      have h2 : ((b : ℤ) : ℚ) < ((2 * (a % b) : ℤ) : ℚ) := by exact_mod_cast h
      push_cast at h2
      linarith
  unfold rhe rneQ
  simp only [c1, c2, hfl]

/-! ## The binary64 division model -/

theorem log2F_spec : ∀ f n, n ≤ f → 1 ≤ n →
    2 ^ log2F f n ≤ n ∧ n < 2 ^ (log2F f n + 1) := by
  intro f
  induction f with
  | zero => intro n h1 h2; omega
  | succ f ih =>
      intro n h1 h2
      by_cases hn : n < 2
      · have hone : n = 1 := by omega
        subst hone
        simp [log2F]
      · rw [log2F, if_neg hn]
        obtain ⟨l1, l2⟩ := ih (n / 2) (by omega) (by omega)
        constructor
        · have hmul := (Nat.le_div_iff_mul_le (by norm_num : 0 < 2)).mp l1
          calc 2 ^ (log2F f (n / 2) + 1) = 2 ^ log2F f (n / 2) * 2 := by rw [pow_succ]
            _ ≤ n := hmul
        · have hmul := (Nat.div_lt_iff_lt_mul (by norm_num : 0 < 2)).mp l2
          calc n < 2 ^ (log2F f (n / 2) + 1) * 2 := hmul
            _ = 2 ^ (log2F f (n / 2) + 1 + 1) := by ring

theorem log2n_spec (n : ℕ) (h : 1 ≤ n) :
    2 ^ log2n n ≤ n ∧ n < 2 ^ (log2n n + 1) :=
  log2F_spec n n le_rfl h

theorem zpow_toNat_of_nonneg {j : ℤ} (h : 0 ≤ j) : (2:ℚ) ^ j = 2 ^ j.toNat := by
  rw [← zpow_natCast]
  congr 1
  omega

theorem npow_mul_zpow (k : ℕ) (e : ℤ) : (2:ℚ) ^ k * 2 ^ e = 2 ^ ((k : ℤ) + e) := by
  rw [← zpow_natCast (2:ℚ) k, ← zpow_add₀ (by norm_num : (2:ℚ) ≠ 0)]

theorem mul_zpow_le_iff (x y : ℚ) (j : ℤ) : x * 2 ^ j ≤ y ↔ x ≤ y * 2 ^ (-j) := by
  have hp : (0:ℚ) < 2 ^ j := zpow_pos (by norm_num) j
  have hn : (0:ℚ) < 2 ^ (-j) := zpow_pos (by norm_num) (-j)
  have hcancel : (2:ℚ) ^ j * 2 ^ (-j) = 1 := by
    rw [← zpow_add₀ (by norm_num : (2:ℚ) ≠ 0)]
    simp
  constructor
  · intro h
    calc x = x * 2 ^ j * 2 ^ (-j) := by rw [mul_assoc, hcancel, mul_one]
      _ ≤ y * 2 ^ (-j) := mul_le_mul_of_nonneg_right h hn.le
  · intro h
    calc x * 2 ^ j ≤ y * 2 ^ (-j) * 2 ^ j := mul_le_mul_of_nonneg_right h hp.le
      _ = y := by rw [mul_assoc, mul_comm ((2:ℚ) ^ (-j)), hcancel, mul_one]

theorem geScaled_iff (a c j : ℤ) : geScaled a c j = true ↔ (c : ℚ) * 2 ^ j ≤ (a : ℚ) := by
  unfold geScaled
  by_cases hj : 0 ≤ j
  · rw [if_pos hj, decide_eq_true_eq, zpow_toNat_of_nonneg hj]
    constructor
    · intro h; exact_mod_cast h
    · intro h; exact_mod_cast h
  · rw [if_neg hj, decide_eq_true_eq, mul_zpow_le_iff,
      zpow_toNat_of_nonneg (by omega : (0:ℤ) ≤ -j)]
    constructor
    · intro h; exact_mod_cast h
    · intro h; exact_mod_cast h

theorem dval_pos (m t : ℤ) (h : 1 ≤ m) : 0 < dval m t := by
  have hm : (0:ℚ) < (m : ℚ) := by exact_mod_cast (by omega : (0:ℤ) < m)
  exact mul_pos hm (zpow_pos (by norm_num) t)

theorem cond_iff (m t c : ℤ) : geScaled m c (-t) = true ↔ (c : ℚ) ≤ dval m t := by
  rw [geScaled_iff, mul_zpow_le_iff, neg_neg]
  unfold dval
  exact Iff.rfl

theorem flDivE_bracket (m t : ℤ) (hm : 1 ≤ m) :
    (2:ℚ) ^ flDivE m t ≤ dval m t / 1000 ∧ dval m t / 1000 < 2 ^ (flDivE m t + 1) := by
  have hmn : 1 ≤ m.natAbs := by omega
  obtain ⟨hL1, hL2⟩ := log2n_spec m.natAbs hmn
  have hmcast : ((m.natAbs : ℕ) : ℚ) = (m : ℚ) := by
    have h0 : (0:ℤ) ≤ m := by omega
    rw [Int.cast_natAbs, abs_of_nonneg h0]
  have hq1 : (2:ℚ) ^ ((log2n m.natAbs : ℕ) : ℤ) ≤ (m : ℚ) := by
    rw [zpow_natCast, ← hmcast]
    exact_mod_cast hL1
  have hq2 : (m : ℚ) < 2 ^ (((log2n m.natAbs : ℕ) : ℤ) + 1) := by
    rw [show (((log2n m.natAbs : ℕ) : ℤ) + 1) = ((log2n m.natAbs + 1 : ℕ) : ℤ) from by
          push_cast; ring,
      zpow_natCast, ← hmcast]
    exact_mod_cast hL2
  have htpos : (0:ℚ) < 2 ^ t := zpow_pos (by norm_num) t
  unfold flDivE
  by_cases hg : geScaled m 1000 ((log2n m.natAbs : ℤ) - 9) = true
  · rw [if_pos hg]
    have hge : (1000 : ℚ) * 2 ^ ((log2n m.natAbs : ℤ) - 9) ≤ (m : ℚ) :=
      (geScaled_iff _ _ _).mp hg
    constructor
    · rw [le_div_iff₀ (by norm_num : (0:ℚ) < 1000)]
      unfold dval
      calc (2:ℚ) ^ ((log2n m.natAbs : ℤ) - 9 + t) * 1000
          = 1000 * 2 ^ ((log2n m.natAbs : ℤ) - 9) * 2 ^ t := by
            rw [zpow_add₀ (by norm_num : (2:ℚ) ≠ 0)]; ring
        _ ≤ (m : ℚ) * 2 ^ t := mul_le_mul_of_nonneg_right hge htpos.le
    · rw [div_lt_iff₀ (by norm_num : (0:ℚ) < 1000)]
      unfold dval
      calc (m : ℚ) * 2 ^ t < 2 ^ (((log2n m.natAbs : ℕ) : ℤ) + 1) * 2 ^ t :=
            mul_lt_mul_of_pos_right hq2 htpos
        _ = 2 ^ ((log2n m.natAbs : ℤ) - 9 + t + 1) * 2 ^ (9:ℤ) := by
            rw [← zpow_add₀ (by norm_num : (2:ℚ) ≠ 0), ← zpow_add₀ (by norm_num : (2:ℚ) ≠ 0)]
            congr 1
            ring
        _ ≤ 2 ^ ((log2n m.natAbs : ℤ) - 9 + t + 1) * 1000 := by
            have h9 : ((2:ℚ) ^ (9:ℤ)) = 512 := by norm_num
            rw [h9]
            have hpos : (0:ℚ) < 2 ^ ((log2n m.natAbs : ℤ) - 9 + t + 1) :=
              zpow_pos (by norm_num) _
            nlinarith
  · rw [if_neg hg]
    have hlt : (m : ℚ) < 1000 * 2 ^ ((log2n m.natAbs : ℤ) - 9) := by
      have hne := (not_iff_not.mpr (geScaled_iff m 1000 ((log2n m.natAbs : ℤ) - 9))).mp hg
      push_neg at hne
      push_cast at hne
      exact hne
    constructor
    · rw [le_div_iff₀ (by norm_num : (0:ℚ) < 1000)]
      unfold dval
      calc (2:ℚ) ^ ((log2n m.natAbs : ℤ) - 10 + t) * 1000
          ≤ 2 ^ ((log2n m.natAbs : ℤ) - 10 + t) * 1024 := by
            have hpos : (0:ℚ) < 2 ^ ((log2n m.natAbs : ℤ) - 10 + t) :=
              zpow_pos (by norm_num) _
            nlinarith
        _ = 2 ^ ((log2n m.natAbs : ℕ) : ℤ) * 2 ^ t := by
            rw [show (1024:ℚ) = 2 ^ (10:ℤ) from by norm_num,
              ← zpow_add₀ (by norm_num : (2:ℚ) ≠ 0), ← zpow_add₀ (by norm_num : (2:ℚ) ≠ 0)]
            congr 1
            ring
        _ ≤ (m : ℚ) * 2 ^ t := mul_le_mul_of_nonneg_right hq1 htpos.le
    · rw [div_lt_iff₀ (by norm_num : (0:ℚ) < 1000)]
      unfold dval
      calc (m : ℚ) * 2 ^ t < 1000 * 2 ^ ((log2n m.natAbs : ℤ) - 9) * 2 ^ t :=
            mul_lt_mul_of_pos_right hlt htpos
        _ = 2 ^ ((log2n m.natAbs : ℤ) - 10 + t + 1) * 1000 := by
            rw [mul_assoc, ← zpow_add₀ (by norm_num : (2:ℚ) ≠ 0),
              show (log2n m.natAbs : ℤ) - 9 + t = (log2n m.natAbs : ℤ) - 10 + t + 1 from by ring]
            ring

theorem flDiv1000_eq (m t : ℤ) :
    flDiv1000 m t = (rneQ (dval m t / 1000 / 2 ^ (flDivE m t - 52)), flDivE m t - 52) := by
  have h2ne : (2:ℚ) ≠ 0 := by norm_num
  unfold flDiv1000
  by_cases hj : 0 ≤ t - flDivE m t + 52
  · rw [if_pos hj, rhe_eq_rneQ _ _ (by norm_num : (0:ℤ) < 1000)]
    have harg : ((m * 2 ^ (t - flDivE m t + 52).toNat : ℤ) : ℚ) / ((1000 : ℤ) : ℚ) =
        dval m t / 1000 / 2 ^ (flDivE m t - 52) := by
      push_cast
      rw [← zpow_toNat_of_nonneg hj]
      unfold dval
      have hgne : (2:ℚ) ^ (flDivE m t - 52) ≠ 0 := ne_of_gt (zpow_pos (by norm_num) _)
      have hsplit : (2:ℚ) ^ t = 2 ^ (t - flDivE m t + 52) * 2 ^ (flDivE m t - 52) := by
        rw [← zpow_add₀ h2ne]
        congr 1
        ring
      rw [hsplit]
      field_simp
      ring
    rw [harg]
  · rw [if_neg hj]
    have hb : (0:ℤ) < 1000 * 2 ^ (-(t - flDivE m t + 52)).toNat := by positivity
    rw [rhe_eq_rneQ _ _ hb]
    have harg : ((m : ℤ) : ℚ) / ((1000 * 2 ^ (-(t - flDivE m t + 52)).toNat : ℤ) : ℚ) =
        dval m t / 1000 / 2 ^ (flDivE m t - 52) := by
      push_cast
      rw [← zpow_toNat_of_nonneg (by omega : (0:ℤ) ≤ -(t - flDivE m t + 52))]
      unfold dval
      have hgne : (2:ℚ) ^ (flDivE m t - 52) ≠ 0 := ne_of_gt (zpow_pos (by norm_num) _)
      have hne2 : (2:ℚ) ^ (-(t - flDivE m t + 52)) ≠ 0 := ne_of_gt (zpow_pos (by norm_num) _)
      have hne3 : (2:ℚ) ^ t ≠ 0 := ne_of_gt (zpow_pos (by norm_num) _)
      have hsplit : (2:ℚ) ^ (flDivE m t - 52) = 2 ^ (-(t - flDivE m t + 52)) * 2 ^ t := by
        rw [← zpow_add₀ h2ne]
        congr 1
        ring
      rw [hsplit]
      field_simp
      ring
    rw [harg]

theorem flDiv_snd (m t : ℤ) : (flDiv1000 m t).2 = flDivE m t - 52 := by
  rw [flDiv1000_eq]

theorem flDiv_val (m t : ℤ) :
    dval (flDiv1000 m t).1 (flDiv1000 m t).2 =
      (rneQ (dval m t / 1000 / 2 ^ (flDivE m t - 52)) : ℚ) * 2 ^ (flDivE m t - 52) := by
  rw [flDiv1000_eq]
  rfl

theorem zpow_half (e : ℤ) : (2:ℚ) ^ (e - 53) = 2 ^ (e - 52) / 2 := by
  rw [show e - 53 = (e - 52) - 1 from by ring, zpow_sub₀ (by norm_num : (2:ℚ) ≠ 0)]
  norm_num

theorem flDiv_err (m t : ℤ) :
    |dval (flDiv1000 m t).1 (flDiv1000 m t).2 - dval m t / 1000| ≤
      2 ^ (flDivE m t - 53) := by
  have hg : (0:ℚ) < 2 ^ (flDivE m t - 52) := zpow_pos (by norm_num) _
  rw [flDiv_val]
  have herr := rneQ_err (dval m t / 1000 / 2 ^ (flDivE m t - 52))
  have key : (rneQ (dval m t / 1000 / 2 ^ (flDivE m t - 52)) : ℚ) * 2 ^ (flDivE m t - 52) -
      dval m t / 1000 =
      ((rneQ (dval m t / 1000 / 2 ^ (flDivE m t - 52)) : ℚ) -
        dval m t / 1000 / 2 ^ (flDivE m t - 52)) * 2 ^ (flDivE m t - 52) := by
    rw [sub_mul, div_mul_cancel₀ _ (ne_of_gt hg)]
  rw [key, abs_mul, abs_of_pos hg, zpow_half]
  calc |(rneQ (dval m t / 1000 / 2 ^ (flDivE m t - 52)) : ℚ) -
        dval m t / 1000 / 2 ^ (flDivE m t - 52)| * 2 ^ (flDivE m t - 52)
      ≤ (1/2) * 2 ^ (flDivE m t - 52) := mul_le_mul_of_nonneg_right herr hg.le
    _ = 2 ^ (flDivE m t - 52) / 2 := by ring

theorem flDiv_m_lb (m t : ℤ) (hm : 1 ≤ m) : 2 ^ 52 ≤ (flDiv1000 m t).1 := by
  obtain ⟨hb1, _⟩ := flDivE_bracket m t hm
  have hg : (0:ℚ) < 2 ^ (flDivE m t - 52) := zpow_pos (by norm_num) _
  have hvg : (2:ℚ) ^ (52:ℕ) ≤ dval m t / 1000 / 2 ^ (flDivE m t - 52) := by
    rw [le_div_iff₀ hg, npow_mul_zpow]
    calc (2:ℚ) ^ ((52:ℕ) + (flDivE m t - 52)) = 2 ^ flDivE m t := by congr 1; ring
      _ ≤ dval m t / 1000 := hb1
  have hge := rneQ_ge (dval m t / 1000 / 2 ^ (flDivE m t - 52))
  have hZ : ((2 ^ 52 - 1 : ℤ) : ℚ) < (rneQ (dval m t / 1000 / 2 ^ (flDivE m t - 52)) : ℚ) := by
    push_cast
    linarith
  have hZ2 : (2 ^ 52 - 1 : ℤ) < rneQ (dval m t / 1000 / 2 ^ (flDivE m t - 52)) := by
    exact_mod_cast hZ
  rw [flDiv1000_eq]
  omega

theorem flDiv_m_ub (m t : ℤ) (hm : 1 ≤ m) : (flDiv1000 m t).1 ≤ 2 ^ 53 := by
  obtain ⟨_, hb2⟩ := flDivE_bracket m t hm
  have hg : (0:ℚ) < 2 ^ (flDivE m t - 52) := zpow_pos (by norm_num) _
  have hvg : dval m t / 1000 / 2 ^ (flDivE m t - 52) < (2:ℚ) ^ (53:ℕ) := by
    rw [div_lt_iff₀ hg, npow_mul_zpow]
    calc dval m t / 1000 < 2 ^ (flDivE m t + 1) := hb2
      _ = 2 ^ ((53:ℕ) + (flDivE m t - 52)) := by congr 1; ring
  have hle := rneQ_le (dval m t / 1000 / 2 ^ (flDivE m t - 52))
  have hZ : (rneQ (dval m t / 1000 / 2 ^ (flDivE m t - 52)) : ℚ) < ((2 ^ 53 + 1 : ℤ) : ℚ) := by
    push_cast
    linarith
  have hZ2 : rneQ (dval m t / 1000 / 2 ^ (flDivE m t - 52)) < (2 ^ 53 + 1 : ℤ) := by
    exact_mod_cast hZ
  rw [flDiv1000_eq]
  omega

theorem flDiv_one_le (m t : ℤ) (hm : 1 ≤ m) : 1 ≤ (flDiv1000 m t).1 :=
  le_trans (by norm_num) (flDiv_m_lb m t hm)

theorem flDiv_lo (m t : ℤ) (hm : 1 ≤ m) :
    dval m t / 1000 * (1 - 1/2^53) ≤ dval (flDiv1000 m t).1 (flDiv1000 m t).2 := by
  obtain ⟨hb1, _⟩ := flDivE_bracket m t hm
  have herr := abs_le.mp (flDiv_err m t)
  have h53 : (2:ℚ) ^ (flDivE m t - 53) ≤ dval m t / 1000 * (1/2^53) := by
    rw [show flDivE m t - 53 = flDivE m t + (-53) from by ring,
      zpow_add₀ (by norm_num : (2:ℚ) ≠ 0)]
    have hc : ((2:ℚ) ^ (-53 : ℤ)) = 1/2^53 := by
      rw [zpow_neg, ← zpow_natCast (2:ℚ) 53]
      norm_num
    rw [hc]
    have : (0:ℚ) < 1/2^53 := by positivity
    nlinarith
  linarith [herr.1]

theorem flDiv_hi (m t : ℤ) (hm : 1 ≤ m) :
    dval (flDiv1000 m t).1 (flDiv1000 m t).2 ≤ dval m t / 1000 * (1 + 1/2^53) := by
  obtain ⟨hb1, _⟩ := flDivE_bracket m t hm
  have herr := abs_le.mp (flDiv_err m t)
  have h53 : (2:ℚ) ^ (flDivE m t - 53) ≤ dval m t / 1000 * (1/2^53) := by
    rw [show flDivE m t - 53 = flDivE m t + (-53) from by ring,
      zpow_add₀ (by norm_num : (2:ℚ) ≠ 0)]
    have hc : ((2:ℚ) ^ (-53 : ℤ)) = 1/2^53 := by
      rw [zpow_neg, ← zpow_natCast (2:ℚ) 53]
      norm_num
    rw [hc]
    have : (0:ℚ) < 1/2^53 := by positivity
    nlinarith
  linarith [herr.2]

theorem flDiv_mono (m₁ t₁ m₂ t₂ : ℤ) (h1 : 1 ≤ m₁) (h2 : 1 ≤ m₂)
    (h : dval m₁ t₁ ≤ dval m₂ t₂) :
    dval (flDiv1000 m₁ t₁).1 (flDiv1000 m₁ t₁).2 ≤
      dval (flDiv1000 m₂ t₂).1 (flDiv1000 m₂ t₂).2 := by
  obtain ⟨a1, a2⟩ := flDivE_bracket m₁ t₁ h1
  obtain ⟨b1, b2⟩ := flDivE_bracket m₂ t₂ h2
  have he : flDivE m₁ t₁ ≤ flDivE m₂ t₂ := by
    by_contra hlt
    push_neg at hlt
    have hz : (2:ℚ) ^ (flDivE m₂ t₂ + 1) ≤ 2 ^ flDivE m₁ t₁ :=
      zpow_le_zpow_right₀ (by norm_num) (by omega)
    linarith
  rcases eq_or_lt_of_le he with heq | hlt
  · rw [flDiv_val, flDiv_val, heq]
    have hg : (0:ℚ) < 2 ^ (flDivE m₂ t₂ - 52) := zpow_pos (by norm_num) _
    have hvv : dval m₁ t₁ / 1000 / 2 ^ (flDivE m₂ t₂ - 52) ≤
        dval m₂ t₂ / 1000 / 2 ^ (flDivE m₂ t₂ - 52) := by gcongr
    have hr := rneQ_mono hvv
    exact mul_le_mul_of_nonneg_right (by exact_mod_cast hr) hg.le
  · calc dval (flDiv1000 m₁ t₁).1 (flDiv1000 m₁ t₁).2
        = ((flDiv1000 m₁ t₁).1 : ℚ) * 2 ^ (flDivE m₁ t₁ - 52) := by rw [flDiv_snd]; rfl
      _ ≤ (2:ℚ) ^ (53:ℕ) * 2 ^ (flDivE m₁ t₁ - 52) := by
          have hub := flDiv_m_ub m₁ t₁ h1
          have hcast : ((flDiv1000 m₁ t₁).1 : ℚ) ≤ (2:ℚ) ^ (53:ℕ) := by exact_mod_cast hub
          exact mul_le_mul_of_nonneg_right hcast (zpow_pos (by norm_num) _).le
      _ = 2 ^ (flDivE m₁ t₁ + 1) := by rw [npow_mul_zpow]; congr 1; push_cast; ring
      _ ≤ 2 ^ flDivE m₂ t₂ := zpow_le_zpow_right₀ (by norm_num) (by omega)
      _ = (2:ℚ) ^ (52:ℕ) * 2 ^ (flDivE m₂ t₂ - 52) := by
          rw [npow_mul_zpow]; congr 1; push_cast; ring
      _ ≤ ((flDiv1000 m₂ t₂).1 : ℚ) * 2 ^ (flDivE m₂ t₂ - 52) := by
          have hlb := flDiv_m_lb m₂ t₂ h2
          have hcast : (2:ℚ) ^ (52:ℕ) ≤ ((flDiv1000 m₂ t₂).1 : ℚ) := by exact_mod_cast hlb
          exact mul_le_mul_of_nonneg_right hcast (zpow_pos (by norm_num) _).le
      _ = dval (flDiv1000 m₂ t₂).1 (flDiv1000 m₂ t₂).2 := by rw [flDiv_snd]; rfl

/-! ## Equations and invariants of the division loop -/

theorem floatLoop_succ_pos (f : ℕ) (m t : ℤ) (h : geScaled m 999950 (-t) = true) :
    floatLoop (f + 1) m t =
      ((floatLoop f (flDiv1000 m t).1 (flDiv1000 m t).2).1 + 1,
       (floatLoop f (flDiv1000 m t).1 (flDiv1000 m t).2).2) := by
  simp only [floatLoop]
  rw [if_pos h]

theorem floatLoop_stop (f : ℕ) (m t : ℤ) (h : ¬ geScaled m 999950 (-t) = true) :
    floatLoop (f + 1) m t = (0, m, t) := by
  simp only [floatLoop]
  rw [if_neg h]

/-- The full invariant of the division loop, for the fuel actually used
(`f ≤ 7`): the count is at most the fuel; the final mantissa is positive;
the final value is `v / 1000^k` up to a relative error `k / 2^52`
(accumulated correctly rounded divisions); if the loop exited by its test
(`k < f`) the final value is below `999950`; a zero count leaves the input
untouched; and after at least one division the final value is at least
`999.95 * (1 - 2^-53)` (the last division's input passed the `≥ 999950`
test) with a mantissa of at most `2^53` (a `flDiv1000` output). -/
theorem floatLoop_spec : ∀ (f : ℕ), f ≤ 7 → ∀ (m t : ℤ), 1 ≤ m →
    (floatLoop f m t).1 ≤ f ∧
    1 ≤ (floatLoop f m t).2.1 ∧
    dval m t / 1000 ^ (floatLoop f m t).1 * (1 - ((floatLoop f m t).1 : ℚ) / 2 ^ 52) ≤
      dval (floatLoop f m t).2.1 (floatLoop f m t).2.2 ∧
    dval (floatLoop f m t).2.1 (floatLoop f m t).2.2 ≤
      dval m t / 1000 ^ (floatLoop f m t).1 * (1 + ((floatLoop f m t).1 : ℚ) / 2 ^ 52) ∧
    ((floatLoop f m t).1 < f →
      dval (floatLoop f m t).2.1 (floatLoop f m t).2.2 < 999950) ∧
    ((floatLoop f m t).1 = 0 → (floatLoop f m t).2 = (m, t)) ∧
    (1 ≤ (floatLoop f m t).1 →
      (999950 : ℚ) / 1000 * (1 - 1 / 2 ^ 53) ≤
        dval (floatLoop f m t).2.1 (floatLoop f m t).2.2) ∧
    (1 ≤ (floatLoop f m t).1 → (floatLoop f m t).2.1 ≤ 2 ^ 53) := by
  intro f
  induction f with
  | zero =>
      intro _ m t hm
      have h0 : floatLoop 0 m t = (0, m, t) := rfl
      rw [h0]
      refine ⟨le_rfl, hm, ?_, ?_, ?_, fun _ => rfl, ?_, ?_⟩
      · show dval m t / 1000 ^ (0:ℕ) * (1 - ((0:ℕ) : ℚ) / 2 ^ 52) ≤ dval m t
        simp
      · show dval m t ≤ dval m t / 1000 ^ (0:ℕ) * (1 + ((0:ℕ) : ℚ) / 2 ^ 52)
        simp
      · intro h
        exact absurd h (Nat.not_lt_zero _)
      · intro h
        exact absurd h (Nat.not_succ_le_zero 0)
      · intro h
        exact absurd h (Nat.not_succ_le_zero 0)
  | succ f ih =>
      intro hf7 m t hm
      by_cases hc : geScaled m 999950 (-t) = true
      · rw [floatLoop_succ_pos f m t hc]
        dsimp only
        have hm1 : 1 ≤ (flDiv1000 m t).1 := flDiv_one_le m t hm
        obtain ⟨ihA, ihB, ihC, ihD, ihE, ihF, ihG, ihH⟩ :=
          ih (by omega) (flDiv1000 m t).1 (flDiv1000 m t).2 hm1
        set k := (floatLoop f (flDiv1000 m t).1 (flDiv1000 m t).2).1 with hk
        set mo := (floatLoop f (flDiv1000 m t).1 (flDiv1000 m t).2).2.1 with hmo
        set w := (floatLoop f (flDiv1000 m t).1 (flDiv1000 m t).2).2.2 with hw
        have hcond : (999950 : ℚ) ≤ dval m t := (cond_iff m t 999950).mp hc
        have hflo := flDiv_lo m t hm
        have hfhi := flDiv_hi m t hm
        have hW : (0:ℚ) < dval m t := dval_pos m t hm
        have hk6 : (k : ℚ) ≤ 6 := by
          have : k ≤ 6 := by omega
          exact_mod_cast this
        have hkc0 : (0:ℚ) ≤ (k : ℚ) / 2 ^ 52 := by positivity
        have hkc1 : (k : ℚ) / 2 ^ 52 ≤ 6 / 2 ^ 52 := by gcongr
        have h6154 : (6:ℚ) / 2 ^ 52 ≤ 1 := by norm_num
        have hPk : (0:ℚ) < 1000 ^ k := by positivity
        refine ⟨by omega, ihB, ?_, ?_, ?_, ?_, ?_, ?_⟩
        · show dval m t / 1000 ^ (k + 1) * (1 - ((k + 1 : ℕ) : ℚ) / 2 ^ 52) ≤ dval mo w
          rw [pow_succ]
          have hstep : dval m t / (1000 ^ k * 1000) * (1 - ((k : ℚ) + 1) / 2 ^ 52) ≤
              (dval m t / 1000 * (1 - 1 / 2 ^ 53)) / 1000 ^ k * (1 - (k : ℚ) / 2 ^ 52) := by
            have hrw : (dval m t / 1000 * (1 - 1 / 2 ^ 53)) / 1000 ^ k *
                (1 - (k : ℚ) / 2 ^ 52) =
                dval m t / (1000 ^ k * 1000) *
                  ((1 - 1 / 2 ^ 53) * (1 - (k : ℚ) / 2 ^ 52)) := by ring
            rw [hrw]
            apply mul_le_mul_of_nonneg_left ?_ (by positivity)
            nlinarith [hkc0]
          calc dval m t / (1000 ^ k * 1000) * (1 - ((k + 1 : ℕ) : ℚ) / 2 ^ 52)
              = dval m t / (1000 ^ k * 1000) * (1 - ((k : ℚ) + 1) / 2 ^ 52) := by
                push_cast; ring
            _ ≤ (dval m t / 1000 * (1 - 1 / 2 ^ 53)) / 1000 ^ k * (1 - (k : ℚ) / 2 ^ 52) :=
                hstep
            _ ≤ dval (flDiv1000 m t).1 (flDiv1000 m t).2 / 1000 ^ k *
                  (1 - (k : ℚ) / 2 ^ 52) := by
                apply mul_le_mul_of_nonneg_right ?_ (by linarith)
                gcongr
            _ ≤ dval mo w := ihC
        · show dval mo w ≤ dval m t / 1000 ^ (k + 1) * (1 + ((k + 1 : ℕ) : ℚ) / 2 ^ 52)
          rw [pow_succ]
          have hstep : (dval m t / 1000 * (1 + 1 / 2 ^ 53)) / 1000 ^ k *
              (1 + (k : ℚ) / 2 ^ 52) ≤
              dval m t / (1000 ^ k * 1000) * (1 + ((k : ℚ) + 1) / 2 ^ 52) := by
            have hrw : (dval m t / 1000 * (1 + 1 / 2 ^ 53)) / 1000 ^ k *
                (1 + (k : ℚ) / 2 ^ 52) =
                dval m t / (1000 ^ k * 1000) *
                  ((1 + 1 / 2 ^ 53) * (1 + (k : ℚ) / 2 ^ 52)) := by ring
            rw [hrw]
            apply mul_le_mul_of_nonneg_left ?_ (by positivity)
            nlinarith [hkc0, hk6]
          calc dval mo w
              ≤ dval (flDiv1000 m t).1 (flDiv1000 m t).2 / 1000 ^ k *
                  (1 + (k : ℚ) / 2 ^ 52) := ihD
            _ ≤ (dval m t / 1000 * (1 + 1 / 2 ^ 53)) / 1000 ^ k *
                  (1 + (k : ℚ) / 2 ^ 52) := by
                apply mul_le_mul_of_nonneg_right ?_ (by linarith)
                gcongr
            _ ≤ dval m t / (1000 ^ k * 1000) * (1 + ((k : ℚ) + 1) / 2 ^ 52) := hstep
            _ = dval m t / (1000 ^ k * 1000) * (1 + ((k + 1 : ℕ) : ℚ) / 2 ^ 52) := by
                push_cast; ring
        · intro hlt
          exact ihE (by omega)
        · intro h0
          exact absurd h0 (by omega)
        · intro _
          rcases Nat.eq_zero_or_pos k with hk0 | hk1
          · have hF := ihF hk0
            have hmo' : mo = (flDiv1000 m t).1 := by rw [hmo, hF]
            have hw' : w = (flDiv1000 m t).2 := by rw [hw, hF]
            rw [hmo', hw']
            calc (999950 : ℚ) / 1000 * (1 - 1 / 2 ^ 53)
                ≤ dval m t / 1000 * (1 - 1 / 2 ^ 53) := by gcongr
              _ ≤ dval (flDiv1000 m t).1 (flDiv1000 m t).2 := hflo
          · exact ihG hk1
        · intro _
          rcases Nat.eq_zero_or_pos k with hk0 | hk1
          · have hF := ihF hk0
            have hmo' : mo = (flDiv1000 m t).1 := by rw [hmo, hF]
            rw [hmo']
            exact flDiv_m_ub m t hm
          · exact ihH hk1
      · rw [floatLoop_stop f m t hc]
        have hlt : dval m t < 999950 := by
          by_contra hge
          apply hc
          apply (cond_iff m t 999950).mpr
          push_cast
          linarith [not_lt.mp hge]
        refine ⟨by omega, hm, by simp, by simp, fun _ => hlt, fun _ => rfl, ?_, ?_⟩
        · intro h0; omega
        · intro h0; omega

/-- `"%.1f"`'s integer: `rheDec` is round half to even of ten times the
exact value of the double. -/
theorem rheDec_eq_rneQ (m t : ℤ) : rheDec m t = rneQ (10 * dval m t) := by
  have h2ne : (2:ℚ) ≠ 0 := by norm_num
  unfold rheDec
  by_cases ht : 0 ≤ t
  · rw [if_pos ht]
    have harg : 10 * dval m t = ((10 * m * 2 ^ t.toNat : ℤ) : ℚ) := by
      unfold dval
      push_cast
      rw [← zpow_toNat_of_nonneg ht]
      ring
    rw [harg, rneQ_intCast]
  · rw [if_neg ht, rhe_eq_rneQ _ _ (by positivity : (0:ℤ) < 2 ^ (-t).toNat)]
    congr 1
    unfold dval
    push_cast
    rw [← zpow_toNat_of_nonneg (by omega : (0:ℤ) ≤ -t)]
    have hne : (2:ℚ) ^ (-t) ≠ 0 := ne_of_gt (zpow_pos (by norm_num) _)
    have hsplit : (2:ℚ) ^ (-t) * 2 ^ t = 1 := by
      rw [← zpow_add₀ h2ne]
      simp
    field_simp
    ring

theorem dispD_eq (m t : ℤ) :
    dispD m t = rneQ (10 * dval (flDiv1000 m t).1 (flDiv1000 m t).2) :=
  rheDec_eq_rneQ _ _

/-! ## Equations for `human_readable_byte_count_si` and its parse -/

theorem format_eq_of_loop (n : ℤ) (p : ℕ) (m t : ℤ) (c : Char)
    (h1 : ¬(-1000 < n ∧ n < 1000))
    (hl : floatLoop 7 (n.natAbs : ℤ) 0 = (p, m, t))
    (hc : prefixes[p]? = some c) :
    human_readable_byte_count_si n =
      some (String.mk (mantChars (if n < 0 then -dispD m t else dispD m t) ++
        ' ' :: c :: ['B'])) := by
  unfold human_readable_byte_count_si
  rw [if_neg h1, hl]
  show (match prefixes[p]? with
    | some c => some (String.mk (mantChars
        (if n < 0 then -dispD m t else dispD m t) ++ ' ' :: c :: ['B']))
    | none => none) = _
  rw [hc]

theorem format_none_of_loop (n : ℤ) (p : ℕ) (m t : ℤ)
    (h1 : ¬(-1000 < n ∧ n < 1000))
    (hl : floatLoop 7 (n.natAbs : ℤ) 0 = (p, m, t))
    (hp : 6 ≤ p) :
    human_readable_byte_count_si n = none := by
  have hc : prefixes[p]? = none := by
    apply List.getElem?_eq_none
    show prefixes.length ≤ p
    have hlen : prefixes.length = 6 := rfl
    omega
  unfold human_readable_byte_count_si
  rw [if_neg h1, hl]
  show (match prefixes[p]? with
    | some c => some (String.mk (mantChars
        (if n < 0 then -dispD m t else dispD m t) ++ ' ' :: c :: ['B']))
    | none => none) = _
  rw [hc]

theorem parse_of_split (s : String) (number units : List Char)
    (h : splitWs s.data = [number, units]) :
    parse_human_readable_byte_count_si s = parseNumberUnits number units := by
  unfold parse_human_readable_byte_count_si
  rw [h]

theorem parseNumberUnits_eq (number : List Char) (u : Char) (r : List Char) (q : ℚ)
    (hq : parseFloatChars number = some q) :
    parseNumberUnits number (u :: r) =
      (parsePrefixes.findIdx? (fun c => c == u)).map (fun i => q * 1000 ^ i) := by
  unfold parseNumberUnits
  rw [hq]

theorem mantissaOf_of_split (s : String) (number : List Char) (rest : List (List Char))
    (h : splitWs s.data = number :: rest) :
    mantissaOf s = parseFloatChars number := by
  unfold mantissaOf
  rw [h]

theorem splitWs_format (d : ℤ) (c : Char) (hc : c ≠ ' ') :
    splitWs (String.mk (mantChars d ++ ' ' :: c :: ['B'])).data =
      [mantChars d, c :: ['B']] := by
  show splitWs (mantChars d ++ ' ' :: c :: ['B']) = [mantChars d, c :: ['B']]
  refine splitWs_pair _ _ (mantChars_ne_nil d) (by simp) (mantChars_no_space d) ?_
  intro x hx
  rcases List.mem_cons.mp hx with rfl | hx
  · exact hc
  · rcases List.mem_cons.mp hx with rfl | hx
    · decide
    · simp at hx

theorem parse_format_string (d : ℤ) (c : Char) (i : ℕ) (hc : c ≠ ' ')
    (hidx : parsePrefixes.findIdx? (fun x => x == c) = some i) :
    parse_human_readable_byte_count_si
        (String.mk (mantChars d ++ ' ' :: c :: ['B'])) =
      some ((d : ℚ) / 10 * 1000 ^ i) := by
  rw [parse_of_split _ _ _ (splitWs_format d c hc),
    parseNumberUnits_eq _ _ _ _ (parseFloatChars_mantChars d), hidx]
  rfl

theorem mantissaOf_format_string (d : ℤ) (c : Char) (hc : c ≠ ' ') :
    mantissaOf (String.mk (mantChars d ++ ' ' :: c :: ['B'])) =
      some ((d : ℚ) / 10) := by
  rw [mantissaOf_of_split _ _ _ (splitWs_format d c hc), parseFloatChars_mantChars d]

/-! ## Numeric bounds for the formatted mantissa -/

theorem prefix_lookup (p : ℕ) (h1 : 1 ≤ p) (h5 : p ≤ 5) :
    ∃ c, prefixes[p]? = some c ∧
      parsePrefixes.findIdx? (fun x => x == c) = some (p + 1) ∧ c ≠ ' ' := by
  interval_cases p <;> exact ⟨_, rfl, rfl, by decide⟩

theorem watch_path_ok (s : Session) (p : String) (es : List Entry)
    (cells : List (List String)) (hc : rowsOf es = some cells) :
    watch_path s (some p) (.ok es) =
      { s with table_rows := (List.range' s.next_key es.length).zip cells,
               data_by_key := (List.range' s.next_key es.length).zip es,
               next_key := s.next_key + es.length } := by
  unfold watch_path
  simp only [hc]

theorem header_selected_eq (s : Session) (ck : String) (ci : ℕ) :
    on_data_table_header_selected s ck ci =
      { s with sort_column := if s.sort_column = ck then s.sort_column else ck,
               sort_reverse := if s.sort_column = ck then !s.sort_reverse else false,
               table_rows := tableSort s.table_rows ci
                 (if s.sort_column = ck then !s.sort_reverse else false) } := by
  unfold on_data_table_header_selected
  by_cases h : s.sort_column = ck <;> simp [h]

theorem tableSort_perm (rows : List (ℕ × List String)) (ci : ℕ) (rev : Bool) :
    (tableSort rows ci rev).Perm rows := by
  unfold tableSort
  split
  · exact (List.reverse_perm _).trans (List.perm_insertionSort _ _)
  · exact List.perm_insertionSort _ _

theorem parse_999_9_kB : parse_human_readable_byte_count_si "999.9 kB" = some 999900 := by
  rw [show "999.9 kB" = String.mk (mantChars 9999 ++ ' ' :: 'k' :: ['B']) from by decide,
    parse_format_string 9999 'k' 1 (by decide) rfl]
  norm_num

theorem parse_1_0_MB : parse_human_readable_byte_count_si "1.0 MB" = some 1000000 := by
  rw [show "1.0 MB" = String.mk (mantChars 10 ++ ' ' :: 'M' :: ['B']) from by decide,
    parse_format_string 10 'M' 2 (by decide) rfl]
  norm_num

/-! ## Overflow: above `999950 * 1000^5` the loop passes prefix index 5

The chain below follows the boundary value `999950 * 1000^5` through the
correctly rounded divisions: every quotient `999950 * 1000^k` (`k ≤ 4`) is
exactly representable in binary64, so the rounded chain stays exact, the
sixth test still sees `999950` and the loop divides a sixth time.  Any
`N ≥ 999950 * 1000^5` dominates this chain pointwise (`flDiv_mono`), so its
count also reaches 6. -/

theorem dval_int (m : ℤ) : dval m 0 = (m : ℚ) := by
  unfold dval
  rw [zpow_zero, mul_one]

theorem loop_count_six (N : ℤ) (hN : 999950 * 1000 ^ 5 ≤ N) :
    6 ≤ (floatLoop 7 N 0).1 := by
  have hN1 : (1:ℤ) ≤ N := by nlinarith
  have hB0 : dval (999950 * 1000 ^ 5) 0 ≤ dval N 0 := by
    rw [dval_int, dval_int]
    exact_mod_cast hN
  have s1 : flDiv1000 (999950 * 1000 ^ 5) 0 = (7812109375000000, 7) := by decide
  have s2 : flDiv1000 7812109375000000 7 = (7999600000000000, -3) := by decide
  have s3 : flDiv1000 7999600000000000 (-3) = (8191590400000000, -13) := by decide
  have s4 : flDiv1000 8191590400000000 (-13) = (8388188569600000, -23) := by decide
  have s5 : flDiv1000 8388188569600000 (-23) = (8589505095270400, -33) := by decide
  have v1 : dval 7812109375000000 7 = 999950 * 1000 ^ 4 := by unfold dval; norm_num
  have v2 : dval 7999600000000000 (-3) = 999950 * 1000 ^ 3 := by unfold dval; norm_num
  have v3 : dval 8191590400000000 (-13) = 999950 * 1000 ^ 2 := by unfold dval; norm_num
  have v4 : dval 8388188569600000 (-23) = 999950 * 1000 := by unfold dval; norm_num
  have v5 : dval 8589505095270400 (-33) = 999950 := by unfold dval; norm_num
  rcases hA1 : flDiv1000 N 0 with ⟨a1, b1⟩
  have p1 : (1:ℤ) ≤ a1 := by
    have h := flDiv_one_le N 0 hN1
    rwa [hA1] at h
  have g1 : dval 7812109375000000 7 ≤ dval a1 b1 := by
    have h := flDiv_mono (999950 * 1000 ^ 5) 0 N 0 (by norm_num) hN1 hB0
    rw [s1, hA1] at h
    exact h
  rcases hA2 : flDiv1000 a1 b1 with ⟨a2, b2⟩
  have p2 : (1:ℤ) ≤ a2 := by
    have h := flDiv_one_le a1 b1 p1
    rwa [hA2] at h
  have g2 : dval 7999600000000000 (-3) ≤ dval a2 b2 := by
    have h := flDiv_mono 7812109375000000 7 a1 b1 (by norm_num) p1 g1
    rw [s2, hA2] at h
    exact h
  rcases hA3 : flDiv1000 a2 b2 with ⟨a3, b3⟩
  have p3 : (1:ℤ) ≤ a3 := by
    have h := flDiv_one_le a2 b2 p2
    rwa [hA3] at h
  have g3 : dval 8191590400000000 (-13) ≤ dval a3 b3 := by
    have h := flDiv_mono 7999600000000000 (-3) a2 b2 (by norm_num) p2 g2
    rw [s3, hA3] at h
    exact h
  rcases hA4 : flDiv1000 a3 b3 with ⟨a4, b4⟩
  have p4 : (1:ℤ) ≤ a4 := by
    have h := flDiv_one_le a3 b3 p3
    rwa [hA4] at h
  have g4 : dval 8388188569600000 (-23) ≤ dval a4 b4 := by
    have h := flDiv_mono 8191590400000000 (-13) a3 b3 (by norm_num) p3 g3
    rw [s4, hA4] at h
    exact h
  rcases hA5 : flDiv1000 a4 b4 with ⟨a5, b5⟩
  have g5 : dval 8589505095270400 (-33) ≤ dval a5 b5 := by
    have h := flDiv_mono 8388188569600000 (-23) a4 b4 (by norm_num) p4 g4
    rw [s5, hA5] at h
    exact h
  rcases hA6 : flDiv1000 a5 b5 with ⟨a6, b6⟩
  have c0 : geScaled N 999950 (-0) = true := by
    apply (cond_iff _ _ _).mpr
    push_cast
    rw [dval_int]
    have h : (999950 * 1000 ^ 5 : ℚ) ≤ (N:ℚ) := by exact_mod_cast hN
    linarith
  have c1 : geScaled a1 999950 (-b1) = true := by
    apply (cond_iff _ _ _).mpr
    push_cast
    rw [v1] at g1
    linarith
  have c2 : geScaled a2 999950 (-b2) = true := by
    apply (cond_iff _ _ _).mpr
    push_cast
    rw [v2] at g2
    linarith
  have c3 : geScaled a3 999950 (-b3) = true := by
    apply (cond_iff _ _ _).mpr
    push_cast
    rw [v3] at g3
    linarith
  have c4 : geScaled a4 999950 (-b4) = true := by
    apply (cond_iff _ _ _).mpr
    push_cast
    rw [v4] at g4
    linarith
  have c5 : geScaled a5 999950 (-b5) = true := by
    apply (cond_iff _ _ _).mpr
    push_cast
    rw [v5] at g5
    linarith
  have e1 : (floatLoop 7 N 0).1 = (floatLoop 6 a1 b1).1 + 1 := by
    rw [floatLoop_succ_pos 6 N 0 c0, hA1]
  have e2 : (floatLoop 6 a1 b1).1 = (floatLoop 5 a2 b2).1 + 1 := by
    rw [floatLoop_succ_pos 5 a1 b1 c1, hA2]
  have e3 : (floatLoop 5 a2 b2).1 = (floatLoop 4 a3 b3).1 + 1 := by
    rw [floatLoop_succ_pos 4 a2 b2 c2, hA3]
  have e4 : (floatLoop 4 a3 b3).1 = (floatLoop 3 a4 b4).1 + 1 := by
    rw [floatLoop_succ_pos 3 a3 b3 c3, hA4]
  have e5 : (floatLoop 3 a4 b4).1 = (floatLoop 2 a5 b5).1 + 1 := by
    rw [floatLoop_succ_pos 2 a4 b4 c4, hA5]
  have e6 : (floatLoop 2 a5 b5).1 = (floatLoop 1 a6 b6).1 + 1 := by
    rw [floatLoop_succ_pos 1 a5 b5 c5, hA6]
  omega

/-! ## The printed mantissa and the parse round trip -/

/-- If the loop's final double `m * 2^t` is a `flDiv1000` output
(`1 ≤ m ≤ 2^53`) below `999950`, the `"%.1f"` digits of its display
division lie in `[0, 9999]` — in particular the printed mantissa is
strictly below `1000.0`.  The key point is strictness at the top: a final
value with `t ≥ -33` sits on a grid containing `999950`, so it is at most
`999950 - 2^-33`, which beats the `2^-53` relative error of the display
division; with `t ≤ -34` the value is at most `2^19`, far from the
boundary. -/
theorem dispD_range (m t : ℤ) (hm1 : 1 ≤ m) (hm53 : m ≤ 2 ^ 53)
    (hlt : dval m t < 999950) :
    0 ≤ dispD m t ∧ dispD m t ≤ 9999 := by
  have hv : 0 < dval m t := dval_pos m t hm1
  have hx_hi := flDiv_hi m t hm1
  have hx_lo := flDiv_lo m t hm1
  set xv := dval (flDiv1000 m t).1 (flDiv1000 m t).2 with hxv
  have hxpos : 0 < xv := by
    have hc53 : (0:ℚ) < 1 - 1/2^53 := by norm_num
    nlinarith [mul_pos (by positivity : (0:ℚ) < dval m t / 1000) hc53]
  have h95 : 10 * xv < 19999/2 := by
    rcases le_or_lt t (-34) with ht | ht
    · have h2t : (2:ℚ) ^ t ≤ 2 ^ (-34 : ℤ) := zpow_le_zpow_right₀ (by norm_num) ht
      have hv19 : dval m t ≤ 2 ^ 19 := by
        unfold dval
        calc (m:ℚ) * 2 ^ t ≤ 2 ^ 53 * 2 ^ t := by
              apply mul_le_mul_of_nonneg_right ?_ (zpow_pos (by norm_num) t).le
              exact_mod_cast hm53
          _ ≤ 2 ^ 53 * 2 ^ (-34 : ℤ) := mul_le_mul_of_nonneg_left h2t (by positivity)
          _ ≤ 2 ^ 19 := by
              rw [npow_mul_zpow]
              norm_num
      linarith [hx_hi, hv19]
    · have ht' : (0:ℤ) ≤ t + 33 := by omega
      have hKv : dval m t = ((m * 2 ^ (t + 33).toNat : ℤ) : ℚ) / 2 ^ 33 := by
        unfold dval
        push_cast
        rw [← zpow_toNat_of_nonneg ht',
          eq_div_iff (by positivity : ((2:ℚ) ^ (33:ℕ)) ≠ 0),
          mul_assoc, mul_comm ((2:ℚ) ^ t), npow_mul_zpow]
        congr 2
        push_cast
        ring
      have hKlt : m * 2 ^ (t + 33).toNat < 999950 * 2 ^ 33 := by
        have hq : ((m * 2 ^ (t + 33).toNat : ℤ) : ℚ) < 999950 * 2 ^ 33 := by
          rw [hKv, div_lt_iff₀ (by positivity : (0:ℚ) < 2 ^ (33:ℕ))] at hlt
          exact hlt
        exact_mod_cast hq
      have hvle : dval m t ≤ 999950 - 1/2^33 := by
        rw [hKv, div_le_iff₀ (by positivity : (0:ℚ) < 2 ^ (33:ℕ))]
        have h2 : (m * 2 ^ (t + 33).toNat : ℤ) ≤ 999950 * 2 ^ 33 - 1 := by omega
        calc ((m * 2 ^ (t + 33).toNat : ℤ) : ℚ) ≤ ((999950 * 2 ^ 33 - 1 : ℤ) : ℚ) := by
              exact_mod_cast h2
          _ = (999950 - 1/2^33) * 2 ^ 33 := by push_cast; ring
      linarith [hx_hi]
  constructor
  · rw [dispD_eq m t, ← hxv]
    have h0 : (0:ℚ) ≤ 10 * xv := by linarith
    have hfl : 0 ≤ ⌊(10:ℚ) * xv⌋ := Int.floor_nonneg.mpr h0
    have := (rneQ_bounds (10 * xv)).1
    omega
  · rw [dispD_eq m t, ← hxv]
    have hle := rneQ_le (10 * xv)
    have hlt10000 : ((rneQ (10 * xv) : ℤ) : ℚ) < 10000 := by linarith
    have hZ : rneQ (10 * xv) < 10000 := by exact_mod_cast hlt10000
    omega

/-- The quantitative round trip: with the loop's two-sided value bound, the
lower bound from the last passed test, and the `± 1/2` of the printed
digit, the parsed value `d/10 * 1000^(p+1)` is within one part in ten of
`|n|` (the true slack is about one part in twenty). -/
theorem roundtrip_bound (N : ℤ) (p : ℕ) (m t : ℤ)
    (hm1 : 1 ≤ m) (hp5 : p ≤ 5)
    (hNQ : (999950:ℚ) ≤ (N:ℚ))
    (hlo : (N:ℚ) / 1000 ^ p * (1 - (p:ℚ)/2^52) ≤ dval m t)
    (hhi : dval m t ≤ (N:ℚ) / 1000 ^ p * (1 + (p:ℚ)/2^52))
    (hvlo : (999950:ℚ)/1000 * (1 - 1/2^53) ≤ dval m t) :
    10 * |((dispD m t : ℤ) : ℚ)/10 * 1000 ^ (p+1) - (N:ℚ)| ≤ (N:ℚ) := by
  have hPpos : (0:ℚ) < (1000:ℚ) ^ p := by positivity
  have hpc : (p:ℚ) ≤ 5 := by exact_mod_cast hp5
  have hpc0 : (0:ℚ) ≤ (p:ℚ) := by positivity
  have hNpos : (0:ℚ) < (N:ℚ) := lt_of_lt_of_le (by norm_num) hNQ
  have hple : (p:ℚ)/2^52 ≤ 5/2^52 := by gcongr
  have A1 : dval m t * 1000 ^ p ≤ (N:ℚ) * (1 + 5/2^52) := by
    calc dval m t * 1000 ^ p
        ≤ ((N:ℚ) / 1000 ^ p * (1 + (p:ℚ)/2^52)) * 1000 ^ p :=
          mul_le_mul_of_nonneg_right hhi hPpos.le
      _ = (N:ℚ) * (1 + (p:ℚ)/2^52) := by field_simp; ring
      _ ≤ (N:ℚ) * (1 + 5/2^52) :=
          mul_le_mul_of_nonneg_left (by linarith) hNpos.le
  have A2 : (N:ℚ) * (1 - 5/2^52) ≤ dval m t * 1000 ^ p := by
    calc (N:ℚ) * (1 - 5/2^52)
        ≤ (N:ℚ) * (1 - (p:ℚ)/2^52) :=
          mul_le_mul_of_nonneg_left (by linarith) hNpos.le
      _ = ((N:ℚ) / 1000 ^ p * (1 - (p:ℚ)/2^52)) * 1000 ^ p := by field_simp; ring
      _ ≤ dval m t * 1000 ^ p := mul_le_mul_of_nonneg_right hlo hPpos.le
  have A5 : (999950:ℚ)/1000 * (1 - 1/2^53) * 1000 ^ p ≤ (N:ℚ) * (1 + 5/2^52) :=
    le_trans (mul_le_mul_of_nonneg_right hvlo hPpos.le) A1
  set X := dval (flDiv1000 m t).1 (flDiv1000 m t).2 with hX
  have hx_hi := flDiv_hi m t hm1
  have hx_lo := flDiv_lo m t hm1
  have herr := rneQ_err (10 * X)
  rw [hX, ← dispD_eq m t] at herr
  have hsplit : ((dispD m t : ℤ) : ℚ)/10 * 1000 ^ (p+1) - (N:ℚ) =
      (((dispD m t : ℤ) : ℚ) - 10 * X) * (100 * 1000 ^ p) +
        (X - dval m t / 1000) * (1000 * 1000 ^ p) +
        (dval m t * 1000 ^ p - (N:ℚ)) := by
    rw [pow_succ]
    ring
  have b1 : |(((dispD m t : ℤ) : ℚ) - 10 * X) * (100 * 1000 ^ p)| ≤
      50 * 1000 ^ p := by
    rw [abs_mul, abs_of_pos (by positivity : (0:ℚ) < 100 * 1000 ^ p)]
    calc |((dispD m t : ℤ) : ℚ) - 10 * X| * (100 * 1000 ^ p)
        ≤ (1/2) * (100 * 1000 ^ p) :=
          mul_le_mul_of_nonneg_right herr (by positivity)
      _ = 50 * 1000 ^ p := by ring
  have b2 : |(X - dval m t / 1000) * (1000 * 1000 ^ p)| ≤
      dval m t * 1000 ^ p * (1/2^53) := by
    rw [abs_mul, abs_of_pos (by positivity : (0:ℚ) < 1000 * 1000 ^ p)]
    have hXd : |X - dval m t / 1000| ≤ dval m t / 1000 * (1/2^53) :=
      abs_le.mpr ⟨by linarith, by linarith⟩
    calc |X - dval m t / 1000| * (1000 * 1000 ^ p)
        ≤ (dval m t / 1000 * (1/2^53)) * (1000 * 1000 ^ p) :=
          mul_le_mul_of_nonneg_right hXd (by positivity)
      _ = dval m t * 1000 ^ p * (1/2^53) := by ring
  have b3 : |dval m t * 1000 ^ p - (N:ℚ)| ≤ (N:ℚ) * (5/2^52) :=
    abs_le.mpr ⟨by linarith, by linarith⟩
  have habs : |((dispD m t : ℤ) : ℚ)/10 * 1000 ^ (p+1) - (N:ℚ)| ≤
      50 * 1000 ^ p + dval m t * 1000 ^ p * (1/2^53) + (N:ℚ) * (5/2^52) := by
    rw [hsplit]
    calc |(((dispD m t : ℤ) : ℚ) - 10 * X) * (100 * 1000 ^ p) +
          (X - dval m t / 1000) * (1000 * 1000 ^ p) +
          (dval m t * 1000 ^ p - (N:ℚ))|
        ≤ |(((dispD m t : ℤ) : ℚ) - 10 * X) * (100 * 1000 ^ p)| +
            |(X - dval m t / 1000) * (1000 * 1000 ^ p)| +
            |dval m t * 1000 ^ p - (N:ℚ)| := abs_add_three _ _ _
      _ ≤ 50 * 1000 ^ p + dval m t * 1000 ^ p * (1/2^53) + (N:ℚ) * (5/2^52) := by
          linarith
  have final : 10 * (50 * 1000 ^ p + dval m t * 1000 ^ p * (1/2^53) +
      (N:ℚ) * (5/2^52)) ≤ (N:ℚ) := by
    linarith [A5, A1, hNpos]
  linarith [habs, final]

/-! ## The claims -/

/-- Claim C1: a row-activation (double click on the table) with a selection
key set and present in the current key-to-entry mapping should resolve the
key through the mapping and call the external open collaborator once with
the entry's raw absolute path.  The code instead evaluates
`self.data_by_row[...]` — an attribute the class never assigns (the mapping
lives in `data_by_key`) — so the handler raises `AttributeError` and
`os.startfile` is never reached: the claim fails on a valid selection. -/
theorem c1_activation_attribute_error :
    sessionSelected.selected_row = some 0 ∧
    sessionSelected.data_by_key.map Prod.fst = [0] ∧
    _on_click sessionSelected true 2 = .error (.attributeError "data_by_row") := by
  decide

/-- Claim C2: activating with no selection is a silent no-op (this part
holds), but activating with a stale selection key — set before a directory
change and absent from the rebuilt mapping — should also be a silent no-op
with no escaping error.  In the code the stale activation raises
(`AttributeError` on `data_by_row`; the intended `data_by_key[stale]` would
raise `KeyError`, there being no staleness guard), so an error escapes the
handler. -/
theorem c2_stale_activation_error :
    _on_click sessionHome true 2 = .ok none ∧
    sessionOther.selected_row = some 0 ∧
    sessionOther.data_by_key.map Prod.fst = [1] ∧
    _on_click sessionOther true 2 = .error (.attributeError "data_by_row") := by
  decide

/-- Claim C3: the switch from the one-decimal k-prefixed form to the next
prefix happens exactly at absolute value 999950, not at 1000000:
`format(999949) = "999.9 kB"` and `format(999950) = "1.0 MB"` (and the same
at `-999949` / `-999950`). -/
theorem c3_boundary_999950 :
    human_readable_byte_count_si 999949 = some "999.9 kB" ∧
    human_readable_byte_count_si 999950 = some "1.0 MB" ∧
    human_readable_byte_count_si (-999949) = some "-999.9 kB" ∧
    human_readable_byte_count_si (-999950) = some "-1.0 MB" := by
  decide

/-- Claim C4 counterexample: at `n = 10^21` (which is `≥ 999950 * 1000^5`)
the loop counts six divisions, `prefixes[6]` is out of range for the
six-character prefix string `"kMGTPE"`, and the formatter fails
(`IndexError`) instead of returning a string with the `"E"` prefix. -/
theorem c4_counterexample :
    human_readable_byte_count_si (10 ^ 21) = none := by decide

/-- Claim C4, amended: for every `n` with `|n| ≥ 999950 * 1000^5` the prefix
index exceeds 5 and `human_readable_byte_count_si` fails on the
out-of-range prefix lookup (raises `IndexError`) rather than returning a
string that reuses the last prefix `"E"`. -/
theorem c4_overflow_fails (n : ℤ) (h : 999950 * 1000 ^ 5 ≤ n.natAbs) :
    human_readable_byte_count_si n = none := by
  have hN : (999950 * 1000 ^ 5 : ℤ) ≤ (n.natAbs : ℤ) := by exact_mod_cast h
  have h6 := loop_count_six (n.natAbs : ℤ) hN
  have hnb : ¬(-1000 < n ∧ n < 1000) := by
    norm_num at hN
    omega
  rcases hl : floatLoop 7 (n.natAbs : ℤ) 0 with ⟨p, mm, tt⟩
  apply format_none_of_loop n p mm tt hnb hl
  rw [hl] at h6
  exact h6

theorem c4_overflow_fails_witness :
    999950 * 1000 ^ 5 ≤ (10 ^ 21 : ℤ).natAbs ∧
      human_readable_byte_count_si (10 ^ 21) = none :=
  ⟨by decide, c4_overflow_fails (10 ^ 21) (by decide)⟩

/-- Claim C5 counterexample: `n = 999950 * 1000^5 - 1` lies inside the
claimed range (`999950 ≤ |n| < 999950 * 1000^5`), yet the formatter fails:
binary64 rounding sends `n / 1000` up to exactly `999950 * 10^12`, the loop
divides a sixth time, and `prefixes[6]` raises `IndexError` — so
`parse(format(n))` is undefined there and the claimed round trip has no
value to be close to `n`. -/
theorem c5_counterexample :
    999950 ≤ (999950 * 1000 ^ 5 - 1 : ℤ).natAbs ∧
    (999950 * 1000 ^ 5 - 1 : ℤ).natAbs < 999950 * 1000 ^ 5 ∧
    human_readable_byte_count_si (999950 * 1000 ^ 5 - 1) = none := by
  decide

/-- Claim C5, corrected: over the claimed range `999950 ≤ |n| < 999950 *
1000^5` the formatter is not total (see the counterexample), but whenever
it does return a string the round trip behaves as claimed: the string
parses, the parsed value is within one part in ten of `n`, and the printed
mantissa is strictly below `1000.0`. -/
theorem c5_parse_format_roundtrip (n : ℤ) (s : String)
    (h1 : 999950 ≤ n.natAbs) (h2 : n.natAbs < 999950 * 1000 ^ 5)
    (hs : human_readable_byte_count_si n = some s) :
    ∃ q mq, parse_human_readable_byte_count_si s = some q ∧
      10 * |q - (n : ℚ)| ≤ |(n : ℚ)| ∧
      mantissaOf s = some mq ∧ |mq| < 1000 := by
  have hnb : ¬(-1000 < n ∧ n < 1000) := by omega
  have hNpos1 : (1:ℤ) ≤ (n.natAbs : ℤ) := by
    exact_mod_cast (show 1 ≤ n.natAbs by omega)
  have spec := floatLoop_spec 7 (by norm_num) ((n.natAbs : ℤ)) 0 hNpos1
  rcases hl : floatLoop 7 ((n.natAbs : ℤ)) 0 with ⟨p, m, t⟩
  rw [hl] at spec
  dsimp only at spec
  obtain ⟨sA, sB, sC, sD, sE, sF, sG, sH⟩ := spec
  rw [dval_int] at sC sD
  rcases hc : prefixes[p]? with _ | c
  · have hp6 : 6 ≤ p := by
      have hlen := List.getElem?_eq_none_iff.mp hc
      have h6 : prefixes.length = 6 := rfl
      omega
    rw [format_none_of_loop n p m t hnb hl hp6] at hs
    exact Option.noConfusion hs
  · have hp5 : p ≤ 5 := by
      by_contra hgt
      push_neg at hgt
      have hnone : prefixes[p]? = none := by
        apply List.getElem?_eq_none
        show prefixes.length ≤ p
        have h6 : prefixes.length = 6 := rfl
        omega
      rw [hnone] at hc
      exact Option.noConfusion hc
    have hp1 : 1 ≤ p := by
      by_contra h0
      have hp0 : p = 0 := by omega
      have hF := sF hp0
      rw [Prod.mk.injEq] at hF
      obtain ⟨hmN, htN⟩ := hF
      have hE := sE (by omega)
      rw [hmN, htN, dval_int] at hE
      have hge : (999950:ℚ) ≤ ((n.natAbs : ℤ) : ℚ) := by exact_mod_cast h1
      linarith
    have hfs := format_eq_of_loop n p m t c hnb hl hc
    rw [hfs] at hs
    have hseq := Option.some_inj.mp hs
    subst hseq
    obtain ⟨c2, hc2, hidx, hcsp⟩ := prefix_lookup p hp1 hp5
    rw [hc] at hc2
    have hcc : c2 = c := (Option.some_inj.mp hc2).symm
    rw [hcc] at hidx hcsp
    have hm1 : 1 ≤ m := sB
    have hvlt : dval m t < 999950 := sE (by omega)
    have hm53 : m ≤ 2 ^ 53 := sH hp1
    obtain ⟨hd0, hd9999⟩ := dispD_range m t hm1 hm53 hvlt
    have hb0 : (0:ℚ) ≤ ((dispD m t : ℤ) : ℚ) := by exact_mod_cast hd0
    have hb9 : ((dispD m t : ℤ) : ℚ) ≤ 9999 := by exact_mod_cast hd9999
    have key := roundtrip_bound (n.natAbs : ℤ) p m t hm1 hp5
      (by exact_mod_cast h1) sC sD (sG hp1)
    refine ⟨_, _, parse_format_string _ c (p+1) hcsp hidx, ?_,
      mantissaOf_format_string _ c hcsp, ?_⟩
    · by_cases hneg : n < 0
      · rw [if_pos hneg]
        have hcast : ((n.natAbs : ℤ) : ℚ) = -(n:ℚ) := by
          have h' : (n.natAbs : ℤ) = -n := by omega
          rw [h']
          push_cast
          ring
        have habsn : |(n:ℚ)| = ((n.natAbs : ℤ) : ℚ) := by
          rw [hcast, abs_of_neg (by exact_mod_cast hneg : (n:ℚ) < 0)]
        have hrw : ((-dispD m t : ℤ) : ℚ)/10 * 1000 ^ (p+1) - (n:ℚ) =
            -(((dispD m t : ℤ) : ℚ)/10 * 1000 ^ (p+1) - ((n.natAbs : ℤ) : ℚ)) := by
          rw [hcast]
          push_cast
          ring
        rw [hrw, abs_neg, habsn]
        exact key
      · rw [if_neg hneg]
        have hcast : ((n.natAbs : ℤ) : ℚ) = (n:ℚ) := by
          have h' : (n.natAbs : ℤ) = n := by omega
          rw [h']
        have habsn : |(n:ℚ)| = ((n.natAbs : ℤ) : ℚ) := by
          rw [hcast, abs_of_nonneg (by exact_mod_cast not_lt.mp hneg : (0:ℚ) ≤ (n:ℚ))]
        rw [habsn, ← hcast]
        exact key
    · by_cases hneg : n < 0
      · rw [if_pos hneg]
        push_cast
        rw [abs_div, abs_neg, abs_of_nonneg hb0]
        rw [show |(10:ℚ)| = 10 from by norm_num]
        rw [div_lt_iff₀ (by norm_num : (0:ℚ) < 10)]
        linarith
      · rw [if_neg hneg]
        rw [abs_div, abs_of_nonneg hb0]
        rw [show |(10:ℚ)| = 10 from by norm_num]
        rw [div_lt_iff₀ (by norm_num : (0:ℚ) < 10)]
        linarith

theorem c5_parse_format_roundtrip_witness :
    999950 ≤ (999950 : ℤ).natAbs ∧ (999950 : ℤ).natAbs < 999950 * 1000 ^ 5 ∧
    human_readable_byte_count_si 999950 = some "1.0 MB" ∧
    ∃ q mq, parse_human_readable_byte_count_si "1.0 MB" = some q ∧
      10 * |q - ((999950 : ℤ) : ℚ)| ≤ |((999950 : ℤ) : ℚ)| ∧
      mantissaOf "1.0 MB" = some mq ∧ |mq| < 1000 :=
  ⟨by decide, by decide, by decide,
    c5_parse_format_roundtrip 999950 "1.0 MB" (by decide) (by decide) (by decide)⟩

/-- Claim C6: when the Size column (index 1 in `column_names`) is sorted,
each row's sort key is the numeric value obtained by parsing its formatted
size string (`number * 1000 ^ index-in-"BkMGTPE"`), not the string; any
other column's key is the cell string itself.  Consequently the row showing
`"999.9 kB"` (999900 bytes) orders before `"1.0 MB"` (1000000 bytes)
ascending, although the code-point string order would put `"1.0 MB"`
first. -/
theorem c6_size_sorts_numerically :
    (∀ cell, sort_key_fn (column_names.indexOf "Size") cell =
        .num ((parse_human_readable_byte_count_si cell).getD 0)) ∧
    (∀ ci cell, ci ≠ column_names.indexOf "Size" → sort_key_fn ci cell = .str cell) ∧
    parse_human_readable_byte_count_si "999.9 kB" = some 999900 ∧
    parse_human_readable_byte_count_si "1.0 MB" = some 1000000 ∧
    rowRel 1 (0, ["a", "999.9 kB", "t"]) (1, ["b", "1.0 MB", "t"]) ∧
    ¬ rowRel 1 (1, ["b", "1.0 MB", "t"]) (0, ["a", "999.9 kB", "t"]) ∧
    ("1.0 MB").data < ("999.9 kB").data := by
  refine ⟨fun cell => by rw [sort_key_fn, if_pos rfl],
    fun ci cell h => by rw [sort_key_fn, if_neg h], parse_999_9_kB, parse_1_0_MB,
    ?_, ?_, by decide⟩
  · show svLe (sort_key_fn 1 "999.9 kB") (sort_key_fn 1 "1.0 MB")
    rw [show (1 : ℕ) = column_names.indexOf "Size" from rfl, sort_key_fn, if_pos rfl,
      sort_key_fn, if_pos rfl, parse_999_9_kB, parse_1_0_MB]
    show (999900 : ℚ) ≤ 1000000
    norm_num
  · show ¬ svLe (sort_key_fn 1 "1.0 MB") (sort_key_fn 1 "999.9 kB")
    rw [show (1 : ℕ) = column_names.indexOf "Size" from rfl, sort_key_fn, if_pos rfl,
      sort_key_fn, if_pos rfl, parse_999_9_kB, parse_1_0_MB]
    show ¬ ((1000000 : ℚ) ≤ 999900)
    norm_num

theorem c6_size_sorts_numerically_witness :
    sort_key_fn 0 "a.txt" = .str "a.txt" :=
  c6_size_sorts_numerically.2.1 0 "a.txt" (by decide)

/-- Claim C7 counterexample: with the active sort column `"Name"` and
ascending direction, two consecutive clicks on the `"Size"` header leave the
direction descending — they do not restore the original direction, refuting
the claim's final sentence for headers that were not already active. -/
theorem c7_counterexample :
    session0.sort_column = "Name" ∧ session0.sort_reverse = false ∧
    (on_data_table_header_selected
        (on_data_table_header_selected session0 "Size" 1) "Size" 1).sort_reverse = true := by
  decide

/-- Claim C7, amended: clicking the active column flips `sort_reverse` and
keeps the column; clicking a different column makes it active with
`sort_reverse = false`.  Two consecutive clicks on the same header restore
the original direction provided that header was already the active sort
column (otherwise they leave it active and descending). -/
theorem c7_header_toggle (s : Session) (ck : String) (ci : ℕ) :
    (s.sort_column = ck →
        (on_data_table_header_selected s ck ci).sort_column = s.sort_column ∧
        (on_data_table_header_selected s ck ci).sort_reverse = !s.sort_reverse) ∧
    (s.sort_column ≠ ck →
        (on_data_table_header_selected s ck ci).sort_column = ck ∧
        (on_data_table_header_selected s ck ci).sort_reverse = false) ∧
    (s.sort_column = ck →
        (on_data_table_header_selected
          (on_data_table_header_selected s ck ci) ck ci).sort_reverse = s.sort_reverse) := by
  refine ⟨fun h => ?_, fun h => ?_, fun h => ?_⟩
  · constructor <;> simp [on_data_table_header_selected, h]
  · constructor <;> simp [on_data_table_header_selected, h]
  · simp [on_data_table_header_selected, h]

theorem c7_header_toggle_witness :
    (on_data_table_header_selected
      (on_data_table_header_selected session0 "Name" 0) "Name" 0).sort_reverse =
      session0.sort_reverse :=
  (c7_header_toggle session0 "Name" 0).2.2 rfl

/-- Claim C8: a directory-selected event whose scan fails (path missing, not
a directory, unreadable) leaves the table with zero rows and appends exactly
one human-readable message to the log; the handler returns normally (the
exception is caught, nothing propagates and nothing aborts).  A successful
scan of an empty directory also yields zero rows and appends no message. -/
theorem c8_scan_error_recovered (s : Session) (p e : String) :
    watch_path s (some p) (.error e) =
      { s with table_rows := [], data_by_key := [], log := s.log ++ [e] } ∧
    watch_path s (some p) (.ok []) =
      { s with table_rows := [], data_by_key := [] } := by
  constructor <;> rfl

theorem c8_scan_error_recovered_witness :
    watch_path session0 (some "/missing") (.error "No such file or directory") =
      { session0 with table_rows := [], data_by_key := [],
                      log := session0.log ++ ["No such file or directory"] } ∧
    watch_path session0 (some "/empty") (.ok []) =
      { session0 with table_rows := [], data_by_key := [] } :=
  ⟨(c8_scan_error_recovered session0 "/missing" "No such file or directory").1,
    (c8_scan_error_recovered session0 "/empty" "x").2⟩

/-- Claim C9 counterexample: after the second directory-selected event the
previous selection key `0` is still the session's selection (while the
rebuilt mapping only holds the fresh key `1`) — the selection is NOT
discarded, refuting "no selection key from the previous directory remains".
-/
theorem c9_counterexample :
    sessionOther.selected_row = some 0 ∧
    (0 : ℕ) ∉ sessionOther.data_by_key.map Prod.fst := by
  decide

/-- Claim C9, amended: on a directory-selected event with a successful scan
the rows and the key-to-entry mapping are discarded and rebuilt from the new
scan alone under fresh keys (no previously used key can remain, keys being
drawn from the monotone generator), but the selection key is NOT discarded:
`selected_row` survives the directory change unchanged. -/
theorem c9_rows_rebuilt_selection_kept (s : Session) (p : String) (es : List Entry)
    (cells : List (List String)) (hc : rowsOf es = some cells)
    (hfresh : ∀ k ∈ s.data_by_key.map Prod.fst, k < s.next_key) :
    (watch_path s (some p) (.ok es)).table_rows =
      (List.range' s.next_key es.length).zip cells ∧
    (watch_path s (some p) (.ok es)).data_by_key =
      (List.range' s.next_key es.length).zip es ∧
    (watch_path s (some p) (.ok es)).selected_row = s.selected_row ∧
    ∀ k ∈ s.data_by_key.map Prod.fst,
      k ∉ (watch_path s (some p) (.ok es)).data_by_key.map Prod.fst := by
  rw [watch_path_ok s p es cells hc]
  refine ⟨rfl, rfl, rfl, ?_⟩
  intro k hk hmem
  have hk' := hfresh k hk
  have hlen : (List.range' s.next_key es.length).length ≤ es.length := by
    simp [List.length_range']
  rw [List.map_fst_zip _ _ hlen, List.mem_range'_1] at hmem
  omega

theorem c9_rows_rebuilt_selection_kept_witness :
    (watch_path sessionSelected (some "/other") (.ok [entryB])).selected_row =
      sessionSelected.selected_row :=
  (c9_rows_rebuilt_selection_kept sessionSelected "/other" [entryB]
    [["b.txt", "5 B", "200"]] (by decide) (by decide)).2.2.1

/-- Claim C10: a header-selected event only mutates the sort state and the
display order: the key-to-entry mapping, the selection, the key generator
and the log are unchanged, and the table still shows the same rows (same
keys and cells) merely reordered. -/
theorem c10_header_frame (s : Session) (ck : String) (ci : ℕ) :
    (on_data_table_header_selected s ck ci).data_by_key = s.data_by_key ∧
    (on_data_table_header_selected s ck ci).selected_row = s.selected_row ∧
    (on_data_table_header_selected s ck ci).next_key = s.next_key ∧
    (on_data_table_header_selected s ck ci).log = s.log ∧
    (on_data_table_header_selected s ck ci).table_rows.Perm s.table_rows := by
  rw [header_selected_eq]
  exact ⟨rfl, rfl, rfl, rfl, tableSort_perm _ _ _⟩

theorem c10_header_frame_witness :
    (on_data_table_header_selected sessionHome "Size" 1).data_by_key =
      sessionHome.data_by_key ∧
    (on_data_table_header_selected sessionHome "Size" 1).selected_row =
      sessionHome.selected_row ∧
    (on_data_table_header_selected sessionHome "Size" 1).next_key = sessionHome.next_key ∧
    (on_data_table_header_selected sessionHome "Size" 1).log = sessionHome.log ∧
    (on_data_table_header_selected sessionHome "Size" 1).table_rows.Perm
      sessionHome.table_rows :=
  c10_header_frame sessionHome "Size" 1

end FileBrowser
